import Mathlib

/-!
# nice-stats: datagram parser and metric aggregation

A shallow embedding of `src/main_nice_stats.cpp`: the byte-level parser of the
receive loop of `main`, the `Metric` record with `Metric::update` and
`Metric::to_string`, the ordered `metrics` map and `print_metrics`, followed
by theorems about them.

Conventions of the embedding.

* A `char` of the receive buffer is a `Char`; a `std::string` and the received
  part `buffer[0 .. size)` of the datagram are a `List Char`.
* `size_t count` is a natural number kept below `SIZE_T_MOD = 2 ^ 64`;
  `count += 1` wraps around.
* `double` and `std::stod` belong to the C++ library, not to the program. The
  embedding takes them as a parameter `NumOps D`: the carrier `D`, the value
  `0.0`, the addition of two doubles, the conversion `std::stod`, which
  answers `none` where the library throws, and `std::to_string`. Every theorem
  holds for every such parameter, hence for IEEE doubles as well.
* The window of ncurses is not modelled: the frame of `print_metrics` is the
  list of the lines handed to `wprintw`.
* An exception that leaves `Metric::update` is never caught in `main`, so the
  process terminates; a step of the receive loop therefore returns an
  `Option`, with `none` for that termination.
-/

namespace NiceStats

/-! ## Data model -/

/-- The enum `MetricType` (source lines 30-36). -/
inductive MetricType where
  | Unknown
  | Count
  | Gauge
  | Timing
  deriving DecidableEq, Repr

/-- The enum `IOState` (source lines 130-140). -/
inductive IOState where
  | ReadingName
  | ReadingMeasurement
  | ReadingType
  | ReadingTypeM
  | ReadingTypeMS
  | ReadingTypeG
  | ReadingTypeC
  | ReadingTags
  deriving DecidableEq, Repr

/-- The constant `unknown_name` (source line 41). -/
def unknown_name : List Char := "<<<unknown>>>".toList

/-- Number of values of `size_t` on the 64-bit targets the program is built for. -/
def SIZE_T_MOD : Nat := 2 ^ 64

/-- The library primitives on `double` used by the program. -/
structure NumOps (D : Type) where
  /-- The literal `0.0`. -/
  zero : D
  /-- Addition of two doubles, as in `value += in_d`. -/
  add : D → D → D
  /-- The conversion `std::stod`; `none` when it throws. -/
  stod : List Char → Option D
  /-- The conversion `std::to_string` of a double. -/
  to_string : D → List Char

/-- The struct `Metric` (source lines 46-50). -/
structure Metric (D : Type) where
  type : MetricType
  count : Nat
  value : D
  deriving DecidableEq, Repr

/-- The constructor `Metric(MetricType type)` (source line 52). -/
def Metric.new {D : Type} (ops : NumOps D) (type : MetricType) : Metric D :=
  { type := type, count := 0, value := ops.zero }

/-- The C string that `std::string::c_str` hands to `std::stod` and to the
directive `%s`: the bytes before the first NUL. -/
def c_str (str : List Char) : List Char :=
  str.takeWhile (fun c => c ≠ Char.ofNat 0)

/-- The method `Metric::update` (source lines 59-80). The conversion comes
first, for every type; the switch follows. -/
def Metric.update {D : Type} (ops : NumOps D) (m : Metric D) (str : List Char) :
    Option (Metric D) :=
  match ops.stod (c_str str) with
  | none => none
  | some in_d =>
    match m.type with
    | .Unknown => some { m with count := (m.count + 1) % SIZE_T_MOD }
    | .Count => some { m with count := (m.count + 1) % SIZE_T_MOD }
    | .Gauge => some { m with count := (m.count + 1) % SIZE_T_MOD, value := in_d }
    | .Timing =>
      some { m with count := (m.count + 1) % SIZE_T_MOD, value := ops.add m.value in_d }

/-! ## The ordered map `metrics` -/

/-- The order of `std::string` keys: lexicographic on the byte values, a proper
initial segment coming first. -/
def strLt : List Char → List Char → Bool
  | [], [] => false
  | [], _ :: _ => true
  | _ :: _, [] => false
  | a :: as, b :: bs =>
    if a.toNat < b.toNat then true
    else if b.toNat < a.toNat then false
    else strLt as bs

/-- The map `std::map<std::string, Metric>` as the list of its entries in
iteration order. -/
abbrev Table (D : Type) := List (List Char × Metric D)

/-- The entry stored under a key, if any (`std::map::find`). -/
def lookup {D : Type} (k : List Char) : Table D → Option (Metric D)
  | [] => none
  | (k', m) :: t => if k' = k then some m else lookup k t

/-- Insertion of a new entry at its place in key order. -/
def insertSorted {D : Type} (k : List Char) (m : Metric D) : Table D → Table D
  | [] => [(k, m)]
  | (k', m') :: t =>
    if strLt k k' then (k, m) :: (k', m') :: t
    else (k', m') :: insertSorted k m t

/-- The call `metrics.emplace(k, m)`: nothing happens when the key is present. -/
def emplace {D : Type} (t : Table D) (k : List Char) (m : Metric D) : Table D :=
  match lookup k t with
  | some _ => t
  | none => insertSorted k m t

/-- In-place change of the entry under a key by a method that may throw. -/
def modify {D : Type} (k : List Char) (f : Metric D → Option (Metric D)) :
    Table D → Option (Table D)
  | [] => some []
  | (k', m) :: t =>
    if k' = k then
      match f m with
      | none => none
      | some m' => some ((k', m') :: t)
    else
      match modify k f t with
      | none => none
      | some t' => some ((k', m) :: t')

/-- The statement `metrics[k].update(str)`: `operator[]` creates a default
`Metric()` when the key is absent, then the entry is updated in place. -/
def updateAt {D : Type} (ops : NumOps D) (t : Table D) (k : List Char) (str : List Char) :
    Option (Table D) :=
  modify k (fun m => m.update ops str) (emplace t k (Metric.new ops .Unknown))

/-! ## The parser loop -/

/-- The local variables of one iteration of the receive loop
(source lines 179-183). -/
structure ParseState where
  name : List Char
  measurement : List Char
  tags : List Char
  type : MetricType
  state : IOState
  deriving DecidableEq, Repr

/-- The loop `for(int i = 0; i < size; ++i)` with its switch (source lines
188-249), over the bytes that are still to be read. Leaving the recursion is
`goto end`. In the three states after a type token, `buffer[i++]` stores the
current byte and moves the index, so the byte that follows is never read. -/
def parseLoop : List Char → ParseState → ParseState
  | [], s => s
  | chr :: rest, s =>
    match s.state with
    | .ReadingName =>
      if chr = ':' then parseLoop rest { s with state := .ReadingMeasurement }
      else parseLoop rest { s with name := s.name ++ [chr] }
    | .ReadingMeasurement =>
      if chr = '|' then parseLoop rest { s with state := .ReadingType }
      else parseLoop rest { s with measurement := s.measurement ++ [chr] }
    | .ReadingType =>
      if chr = 'c' then parseLoop rest { s with state := .ReadingTypeC, type := .Count }
      else if chr = 'g' then parseLoop rest { s with state := .ReadingTypeG, type := .Gauge }
      else if chr = 'm' then parseLoop rest { s with state := .ReadingTypeM }
      else s
    | .ReadingTypeM =>
      if chr ≠ 's' then s
      else parseLoop rest { s with state := .ReadingTypeMS, type := .Timing }
    | .ReadingTypeMS | .ReadingTypeC | .ReadingTypeG =>
      if chr ≠ '|' then { s with type := .Unknown }
      else
        match rest with
        | [] => { s with state := .ReadingTags, tags := s.tags ++ [chr] }
        | _ :: rest' => parseLoop rest' { s with state := .ReadingTags, tags := s.tags ++ [chr] }
    | .ReadingTags => parseLoop rest { s with tags := s.tags ++ [chr] }

/-- The values of the locals before the loop (source lines 179-183). -/
def ParseState.init : ParseState :=
  { name := [], measurement := [], tags := [], type := .Unknown, state := .ReadingName }

/-- The parse of one datagram. -/
def parse (buffer : List Char) : ParseState :=
  parseLoop buffer ParseState.init

/-! ## One iteration of the receive loop -/

/-- The update of `metrics` for one received datagram (source lines 253-263).
The result is `none` when `std::stod` throws inside `Metric::update`. The call
`print_metrics()` that ends the iteration is `print_metrics` below, and the
loop with that call is `runWith`. -/
def process {D : Type} (ops : NumOps D) (metrics : Table D) (buffer : List Char) :
    Option (Table D) :=
  let p := parse buffer
  if p.type ≠ .Unknown then
    let metric_name := p.name ++ p.tags
    updateAt ops (emplace metrics metric_name (Metric.new ops p.type)) metric_name p.measurement
  else
    updateAt ops (emplace metrics unknown_name (Metric.new ops .Count)) unknown_name "1".toList

/-- The datagrams of a list processed one after the other, each on the table
left by the one before. -/
def processAll {D : Type} (ops : NumOps D) : Table D → List (List Char) → Option (Table D)
  | t, [] => some t
  | t, d :: ds =>
    match process ops t d with
    | none => none
    | some t' => processAll ops t' ds

/-! ## Rendering -/

/-- The conversion `std::to_string` of a `size_t`: the decimal digits. -/
def size_to_string (n : Nat) : List Char :=
  Nat.toDigits 10 n

/-- The method `Metric::to_string` (source lines 85-98). -/
def Metric.to_string {D : Type} (ops : NumOps D) (m : Metric D) : List Char :=
  match m.type with
  | .Unknown => size_to_string m.count
  | .Count => size_to_string m.count
  | .Gauge => size_to_string m.count ++ " @ ".toList ++ ops.to_string m.value
  | .Timing => size_to_string m.count ++ " @ ".toList ++ ops.to_string m.value

/-- The function `print_metrics` (source lines 116-125), in state-passing
form: the loop goes through the entries of the map in iteration order, and the
result is the map as the loop leaves it together with the lines written to the
window, one `wprintw(window, "%s\n", out.c_str())` per entry. The directive
`%s` prints the bytes of `out` before the first NUL. -/
def print_metrics {D : Type} (ops : NumOps D) : Table D → Table D × List (List Char)
  | [] => ([], [])
  | (key, metric) :: rest =>
    let out := key ++ ": ".toList ++ metric.to_string ops
    let r := print_metrics ops rest
    ((key, metric) :: r.1, c_str out :: r.2)

/-- The receive loop on a list of datagrams, with the call `print_metrics()`
made after a datagram only where its flag is set. The loop of `main` is the
case in which every flag is set. -/
def runWith {D : Type} (ops : NumOps D) :
    Table D → List (List Char × Bool) → Option (Table D)
  | t, [] => some t
  | t, (d, render) :: ds =>
    match process ops t d with
    | none => none
    | some t' => runWith ops (if render then (print_metrics ops t').1 else t') ds

/-- The keys of a table come in strictly ascending order, as in every
`std::map`. -/
def keysAscending {D : Type} (t : Table D) : Prop :=
  List.Pairwise (fun a b => strLt a.1 b.1 = true) t

/-- The sum of the counts of all entries. -/
def countSum {D : Type} (t : Table D) : Nat :=
  (t.map (fun e => e.2.count)).sum

/-! ## A decimal instance of the numeric primitives -/

/-- The predicate `isspace` of the C locale. -/
def isspace (c : Char) : Bool :=
  c = ' ' || c = '\t' || c = '\n' || c = Char.ofNat 11 || c = Char.ofNat 12 || c = '\r'

/-- Reads decimal digits: the number read so far, how many digits it has, and
what is left of the input. -/
def readDigits : List Char → Nat → Nat → Nat × Nat × List Char
  | [], acc, n => (acc, n, [])
  | c :: cs, acc, n =>
    if 48 ≤ c.toNat ∧ c.toNat ≤ 57 then readDigits cs (acc * 10 + (c.toNat - 48)) (n + 1)
    else (acc, n, c :: cs)

/-- The conversion `std::stod` on plain decimal numerals
`[space]* [+-]? digits [. digits]`, with the value counted in millionths. As
in the library, what follows the numeral is ignored and an input without a
digit is an error. Exponents, hexadecimal numerals, `inf` and `nan` are not
covered, and digits after the sixth decimal are dropped. -/
def decStod (s : List Char) : Option Int :=
  let s1 := s.dropWhile isspace
  let neg : Bool := match s1 with
    | c :: _ => decide (c = '-')
    | [] => false
  let s2 := match s1 with
    | c :: r => if c = '-' ∨ c = '+' then r else s1
    | [] => s1
  let ip := readDigits s2 0 0
  let fp : Nat × Nat := match ip.2.2 with
    | c :: r =>
      if c = '.' then
        let f := readDigits (r.take 6) 0 0
        (f.1 * 10 ^ (6 - f.2.1), f.2.1)
      else (0, 0)
    | [] => (0, 0)
  if ip.2.1 + fp.2 = 0 then none
  else
    let v : Int := ((ip.1 * 10 ^ 6 + fp.1 : Nat) : Int)
    some (if neg then -v else v)

/-- The conversion `std::to_string` of a value counted in millionths: the
format `%f`, with six decimals. -/
def decToString (v : Int) : List Char :=
  (if v < 0 then ['-'] else []) ++ Nat.toDigits 10 (v.natAbs / 10 ^ 6) ++ ['.'] ++
    (Nat.toDigits 10 (10 ^ 6 + v.natAbs % 10 ^ 6)).tail

/-- Exact decimal arithmetic in millionths, used to evaluate the program on
concrete datagrams whose measurements are plain decimal numerals. -/
def decOps : NumOps Int :=
  { zero := 0, add := fun a b => a + b, stod := decStod, to_string := decToString }

/-! ## The parser on the segments of a datagram -/

/-- Reading a name up to its colon. -/
theorem parseLoop_name (name rest : List Char) (h : ':' ∉ name) :
    ∀ (n m tg : List Char) (ty : MetricType),
      parseLoop (name ++ ':' :: rest) ⟨n, m, tg, ty, .ReadingName⟩ =
        parseLoop rest ⟨n ++ name, m, tg, ty, .ReadingMeasurement⟩ := by
  induction name with
  | nil => intro n m tg ty; simp [parseLoop]
  | cons c cs ih =>
    intro n m tg ty
    have hc : c ≠ ':' := fun e => h (by simp [e])
    have hcs : ':' ∉ cs := fun e => h (by simp [e])
    simp [parseLoop, hc, ih hcs]

/-- Reading a measurement up to its bar. -/
theorem parseLoop_measurement (meas rest : List Char) (h : '|' ∉ meas) :
    ∀ (n m tg : List Char) (ty : MetricType),
      parseLoop (meas ++ '|' :: rest) ⟨n, m, tg, ty, .ReadingMeasurement⟩ =
        parseLoop rest ⟨n, m ++ meas, tg, ty, .ReadingType⟩ := by
  induction meas with
  | nil => intro n m tg ty; simp [parseLoop]
  | cons c cs ih =>
    intro n m tg ty
    have hc : c ≠ '|' := fun e => h (by simp [e])
    have hcs : '|' ∉ cs := fun e => h (by simp [e])
    simp [parseLoop, hc, ih hcs]

/-- A buffer without a colon is read as a name to its end. -/
theorem parseLoop_name_only (name : List Char) (h : ':' ∉ name) :
    ∀ (n m tg : List Char) (ty : MetricType),
      parseLoop name ⟨n, m, tg, ty, .ReadingName⟩ = ⟨n ++ name, m, tg, ty, .ReadingName⟩ := by
  induction name with
  | nil => intro n m tg ty; simp [parseLoop]
  | cons c cs ih =>
    intro n m tg ty
    have hc : c ≠ ':' := fun e => h (by simp [e])
    have hcs : ':' ∉ cs := fun e => h (by simp [e])
    simp [parseLoop, hc, ih hcs]

/-- A measurement without a bar is read to the end of the buffer. -/
theorem parseLoop_measurement_only (meas : List Char) (h : '|' ∉ meas) :
    ∀ (n m tg : List Char) (ty : MetricType),
      parseLoop meas ⟨n, m, tg, ty, .ReadingMeasurement⟩ =
        ⟨n, m ++ meas, tg, ty, .ReadingMeasurement⟩ := by
  induction meas with
  | nil => intro n m tg ty; simp [parseLoop]
  | cons c cs ih =>
    intro n m tg ty
    have hc : c ≠ '|' := fun e => h (by simp [e])
    have hcs : '|' ∉ cs := fun e => h (by simp [e])
    simp [parseLoop, hc, ih hcs]

/-- In the state `ReadingTags` every byte left is appended to the tags. -/
theorem parseLoop_tags (rest : List Char) :
    ∀ (n m tg : List Char) (ty : MetricType),
      parseLoop rest ⟨n, m, tg, ty, .ReadingTags⟩ = ⟨n, m, tg ++ rest, ty, .ReadingTags⟩ := by
  induction rest with
  | nil => intro n m tg ty; simp [parseLoop]
  | cons c cs ih => intro n m tg ty; simp [parseLoop, ih]

/-- The parse of `name ":" measurement "|" rest` is the parse of `rest` in the
state `ReadingType` with the name and the measurement stored. -/
theorem parse_head (name meas rest : List Char) (hn : ':' ∉ name) (hm : '|' ∉ meas) :
    parse (name ++ ':' :: (meas ++ '|' :: rest)) =
      parseLoop rest ⟨name, meas, [], .Unknown, .ReadingType⟩ := by
  unfold parse ParseState.init
  rw [parseLoop_name name _ hn, parseLoop_measurement meas _ hm]
  simp

/-! ## The map operations seen through `lookup` -/

/-- A key that was absent is found with the inserted entry. -/
theorem lookup_insertSorted_self {D : Type} (k : List Char) (m : Metric D) (t : Table D)
    (h : lookup k t = none) : lookup k (insertSorted k m t) = some m := by
  induction t with
  | nil => simp [insertSorted, lookup]
  | cons e t ih =>
    obtain ⟨k1, m1⟩ := e
    by_cases hk : k1 = k
    · simp [lookup, hk] at h
    · simp only [lookup, hk, if_false] at h
      by_cases hlt : strLt k k1 = true
      · simp [insertSorted, hlt, lookup]
      · simp [insertSorted, hlt, lookup, hk, ih h]

/-- Insertion leaves every other key as it was. -/
theorem lookup_insertSorted_ne {D : Type} (k k' : List Char) (m : Metric D) (t : Table D)
    (h : k' ≠ k) : lookup k' (insertSorted k m t) = lookup k' t := by
  have h' : ¬ k = k' := fun e => h e.symm
  induction t with
  | nil => simp [insertSorted, lookup, h']
  | cons e t ih =>
    obtain ⟨k1, m1⟩ := e
    by_cases hlt : strLt k k1 = true
    · simp [insertSorted, hlt, lookup, h']
    · simp [insertSorted, hlt, lookup, ih]

/-- The table after `emplace`: the key holds its old entry, or the new one when
it was absent; every other key is as it was. -/
theorem lookup_emplace {D : Type} (t : Table D) (k k' : List Char) (m : Metric D) :
    lookup k' (emplace t k m) =
      if k' = k then some ((lookup k t).getD m) else lookup k' t := by
  unfold emplace
  by_cases hk : k' = k
  · subst hk
    cases hl : lookup k' t with
    | none => simp [lookup_insertSorted_self k' m t hl]
    | some m1 => simp [hl]
  · cases hl : lookup k t with
    | none => simp [hk, lookup_insertSorted_ne k k' m t hk]
    | some m1 => simp [hk]

/-- A successful in-place change is seen under its key and nowhere else. -/
theorem modify_some {D : Type} (k : List Char) (f : Metric D → Option (Metric D))
    (t : Table D) (m m' : Metric D) (h : lookup k t = some m) (hf : f m = some m') :
    ∃ t', modify k f t = some t' ∧
      ∀ k', lookup k' t' = if k' = k then some m' else lookup k' t := by
  induction t with
  | nil => simp [lookup] at h
  | cons e t ih =>
    obtain ⟨k1, m1⟩ := e
    by_cases hk : k1 = k
    · subst hk
      simp only [lookup, if_true, Option.some.injEq] at h
      subst h
      refine ⟨(k1, m') :: t, by simp [modify, hf], ?_⟩
      intro k'
      by_cases hk' : k' = k1
      · simp [lookup, hk']
      · have : ¬ k1 = k' := fun e => hk' e.symm
        simp [lookup, hk', this]
    · simp only [lookup, hk, if_false] at h
      obtain ⟨t', ht', hl⟩ := ih h
      refine ⟨(k1, m1) :: t', by simp [modify, hk, ht'], ?_⟩
      intro k'
      by_cases hk' : k' = k
      · subst hk'
        simp [lookup, hk, hl]
      · by_cases h1 : k1 = k'
        · simp [lookup, h1, hk']
        · simp [lookup, h1, hk', hl]

/-- A change that throws makes the whole step fail. -/
theorem modify_none {D : Type} (k : List Char) (f : Metric D → Option (Metric D))
    (t : Table D) (m : Metric D) (h : lookup k t = some m) (hf : f m = none) :
    modify k f t = none := by
  induction t with
  | nil => simp [lookup] at h
  | cons e t ih =>
    obtain ⟨k1, m1⟩ := e
    by_cases hk : k1 = k
    · subst hk
      simp only [lookup, if_true, Option.some.injEq] at h
      subst h
      simp [modify, hf]
    · simp only [lookup, hk, if_false] at h
      simp [modify, hk, ih h]

/-- The pair `emplace` then `operator[] ... update` when the update returns. -/
theorem updateAt_emplace_some {D : Type} (ops : NumOps D) (t : Table D) (k str : List Char)
    (m0 m' : Metric D) (h : Metric.update ops ((lookup k t).getD m0) str = some m') :
    ∃ t', updateAt ops (emplace t k m0) k str = some t' ∧
      ∀ k', lookup k' t' = if k' = k then some m' else lookup k' t := by
  have hl : lookup k (emplace t k m0) = some ((lookup k t).getD m0) := by
    simp [lookup_emplace]
  have he : emplace (emplace t k m0) k (Metric.new ops .Unknown) = emplace t k m0 := by
    unfold emplace at hl ⊢
    simp only [hl]
  obtain ⟨t', ht', hl'⟩ :=
    modify_some k (fun m => Metric.update ops m str) (emplace t k m0) _ m' hl h
  refine ⟨t', by simp [updateAt, he, ht'], ?_⟩
  intro k'
  rw [hl' k']
  by_cases hk : k' = k
  · simp [hk]
  · simp [hk, lookup_emplace]

/-- The pair `emplace` then `operator[] ... update` when the update throws. -/
theorem updateAt_emplace_none {D : Type} (ops : NumOps D) (t : Table D) (k str : List Char)
    (m0 : Metric D) (h : Metric.update ops ((lookup k t).getD m0) str = none) :
    updateAt ops (emplace t k m0) k str = none := by
  have hl : lookup k (emplace t k m0) = some ((lookup k t).getD m0) := by
    simp [lookup_emplace]
  have he : emplace (emplace t k m0) k (Metric.new ops .Unknown) = emplace t k m0 := by
    unfold emplace at hl ⊢
    simp only [hl]
  simp [updateAt, he, modify_none k (fun m => Metric.update ops m str) (emplace t k m0) _ hl h]

/-- The count after an update that returns, whatever the type. -/
theorem update_count {D : Type} (ops : NumOps D) (m m' : Metric D) (str : List Char)
    (h : Metric.update ops m str = some m') :
    m'.count = (m.count + 1) % SIZE_T_MOD ∧ m'.type = m.type := by
  unfold Metric.update at h
  cases hs : ops.stod (c_str str) with
  | none => simp [hs] at h
  | some v =>
    rw [hs] at h
    cases ht : m.type <;> simp [ht] at h <;> subst h <;> simp [ht]

/-- An update returns as soon as the conversion does. -/
theorem update_isSome {D : Type} (ops : NumOps D) (m : Metric D) (str : List Char) (v : D)
    (h : ops.stod (c_str str) = some v) : ∃ m', Metric.update ops m str = some m' := by
  unfold Metric.update
  rw [h]
  cases m.type <;> simp

/-- The rule of `Metric::update` for the types `Unknown` and `Count`. -/
theorem update_of_count {D : Type} (ops : NumOps D) (m : Metric D) (str : List Char) (v : D)
    (ht : m.type = .Unknown ∨ m.type = .Count) (h : ops.stod (c_str str) = some v) :
    Metric.update ops m str = some ⟨m.type, (m.count + 1) % SIZE_T_MOD, m.value⟩ := by
  rcases ht with ht | ht <;> simp [Metric.update, h, ht]

/-- The rule of `Metric::update` for the type `Gauge`. -/
theorem update_of_gauge {D : Type} (ops : NumOps D) (m : Metric D) (str : List Char) (v : D)
    (ht : m.type = .Gauge) (h : ops.stod (c_str str) = some v) :
    Metric.update ops m str = some ⟨.Gauge, (m.count + 1) % SIZE_T_MOD, v⟩ := by
  simp [Metric.update, h, ht]

/-- The rule of `Metric::update` for the type `Timing`. -/
theorem update_of_timing {D : Type} (ops : NumOps D) (m : Metric D) (str : List Char) (v : D)
    (ht : m.type = .Timing) (h : ops.stod (c_str str) = some v) :
    Metric.update ops m str =
      some ⟨.Timing, (m.count + 1) % SIZE_T_MOD, ops.add m.value v⟩ := by
  simp [Metric.update, h, ht]

/-- The count `1` of a fresh entry after its first update. -/
theorem one_mod : (0 + 1) % SIZE_T_MOD = 1 := by simp [SIZE_T_MOD]

/-- The count `2` of an entry after its second update. -/
theorem two_mod : (1 + 1) % SIZE_T_MOD = 2 := by simp [SIZE_T_MOD]

/-- A datagram whose parse has a type other than `Unknown` updates the entry of
its aggregation key. -/
theorem process_recognized {D : Type} (ops : NumOps D) (t : Table D) (d : List Char)
    (h : (parse d).type ≠ .Unknown) :
    process ops t d =
      updateAt ops
        (emplace t ((parse d).name ++ (parse d).tags) (Metric.new ops (parse d).type))
        ((parse d).name ++ (parse d).tags) (parse d).measurement := by
  simp [process, h]

/-- A datagram whose parse has the type `Unknown` updates the sentinel entry. -/
theorem process_unknown {D : Type} (ops : NumOps D) (t : Table D) (d : List Char)
    (h : (parse d).type = .Unknown) :
    process ops t d =
      updateAt ops (emplace t unknown_name (Metric.new ops .Count)) unknown_name "1".toList := by
  simp [process, h]

/-- A recognized datagram whose measurement converts: the step returns, the
entry of the aggregation key is the updated old entry (or the updated fresh
one), and every other key is untouched. -/
theorem process_recognized_some {D : Type} (ops : NumOps D) (t : Table D) (d : List Char)
    (v : D) (h : (parse d).type ≠ .Unknown)
    (hv : ops.stod (c_str (parse d).measurement) = some v) :
    ∃ t' m', process ops t d = some t' ∧
      Metric.update ops
        ((lookup ((parse d).name ++ (parse d).tags) t).getD (Metric.new ops (parse d).type))
        (parse d).measurement = some m' ∧
      ∀ k', lookup k' t' =
        if k' = (parse d).name ++ (parse d).tags then some m' else lookup k' t := by
  obtain ⟨m', hm'⟩ := update_isSome ops
    ((lookup ((parse d).name ++ (parse d).tags) t).getD (Metric.new ops (parse d).type))
    (parse d).measurement v hv
  obtain ⟨t', ht', hl⟩ := updateAt_emplace_some ops t _ _ _ m' hm'
  exact ⟨t', m', by rw [process_recognized ops t d h, ht'], hm', hl⟩

/-- A datagram that is not recognized: the step returns as soon as the
conversion of the default argument `"1"` does, the sentinel entry is the
updated old entry (or the updated fresh `Count` entry), and every other key is
untouched. -/
theorem process_unknown_some {D : Type} (ops : NumOps D) (t : Table D) (d : List Char)
    (one : D) (h : (parse d).type = .Unknown) (h1 : ops.stod "1".toList = some one) :
    ∃ t' m', process ops t d = some t' ∧
      Metric.update ops ((lookup unknown_name t).getD (Metric.new ops .Count)) "1".toList =
        some m' ∧
      ∀ k', lookup k' t' = if k' = unknown_name then some m' else lookup k' t := by
  have hc : c_str "1".toList = "1".toList := by rfl
  obtain ⟨m', hm'⟩ := update_isSome ops
    ((lookup unknown_name t).getD (Metric.new ops .Count)) "1".toList one (by rw [hc, h1])
  obtain ⟨t', ht', hl⟩ := updateAt_emplace_some ops t _ _ _ m' hm'
  exact ⟨t', m', by rw [process_unknown ops t d h, ht'], hm', hl⟩

/-- One recognized datagram evaluated on a table with at most the entry of its
own key: the first datagram for a key. -/
theorem process_first {D : Type} (ops : NumOps D) (d name meas tags : List Char)
    (ty : MetricType) (st : IOState) (m' : Metric D)
    (hp : parse d = ⟨name, meas, tags, ty, st⟩) (hu : ty ≠ .Unknown)
    (hm : Metric.update ops (Metric.new ops ty) meas = some m') :
    process ops [] d = some [(name ++ tags, m')] := by
  have hu' : (parse d).type ≠ .Unknown := by rw [hp]; exact hu
  rw [process_recognized ops _ _ hu', hp]
  simp only [updateAt, emplace, lookup, insertSorted, modify, if_true, hm]

/-- One recognized datagram evaluated on the table that holds only the entry
of its own key. -/
theorem process_again {D : Type} (ops : NumOps D) (d name meas tags : List Char)
    (ty : MetricType) (st : IOState) (m m' : Metric D)
    (hp : parse d = ⟨name, meas, tags, ty, st⟩) (hu : ty ≠ .Unknown)
    (hm : Metric.update ops m meas = some m') :
    process ops [(name ++ tags, m)] d = some [(name ++ tags, m')] := by
  have hu' : (parse d).type ≠ .Unknown := by rw [hp]; exact hu
  rw [process_recognized ops _ _ hu', hp]
  simp only [updateAt, emplace, lookup, modify, if_true, hm]

/-- A buffer without a colon never leaves the state `ReadingName`: its type
stays `Unknown`. -/
theorem parse_no_colon (d : List Char) (h : ':' ∉ d) : (parse d).type = .Unknown := by
  unfold parse ParseState.init
  rw [parseLoop_name_only d h]

/-- A buffer without a bar after its first colon never leaves the state
`ReadingMeasurement`: its type stays `Unknown`. -/
theorem parse_no_bar (name rest : List Char) (hn : ':' ∉ name) (hr : '|' ∉ rest) :
    (parse (name ++ ':' :: rest)).type = .Unknown := by
  unfold parse ParseState.init
  rw [parseLoop_name name rest hn, parseLoop_measurement_only rest hr]

/-- A datagram that is not recognized, on the empty table. -/
theorem process_unknown_first {D : Type} (ops : NumOps D) (d : List Char) (one : D)
    (h : (parse d).type = .Unknown) (h1 : ops.stod "1".toList = some one) :
    process ops [] d = some [(unknown_name, ⟨.Count, 1, ops.zero⟩)] := by
  have hc : c_str "1".toList = "1".toList := by rfl
  have hm : Metric.update ops (Metric.new ops .Count) "1".toList =
      some ⟨.Count, 1, ops.zero⟩ := by
    rw [update_of_count ops _ _ one (Or.inr rfl) (by rw [hc, h1]), Metric.new, one_mod]
  rw [process_unknown ops _ _ h]
  simp only [updateAt, emplace, lookup, insertSorted, modify, if_true, hm]

/-- A datagram that is not recognized, on the table that holds only the
sentinel entry. -/
theorem process_unknown_again {D : Type} (ops : NumOps D) (d : List Char)
    (m m' : Metric D) (h : (parse d).type = .Unknown)
    (hm : Metric.update ops m "1".toList = some m') :
    process ops [(unknown_name, m)] d = some [(unknown_name, m')] := by
  rw [process_unknown ops _ _ h]
  simp only [updateAt, emplace, lookup, modify, if_true, hm]

/-- After `name ":" measurement "|"`, a rest that is none of `c`, `g`, `ms` and
starts with none of `c|`, `g|`, `ms|` ends the parse with the type `Unknown`. -/
theorem parseLoop_bad_type (name meas rest : List Char)
    (hc : rest ≠ "c".toList) (hg : rest ≠ "g".toList) (hms : rest ≠ "ms".toList)
    (hc' : ∀ r, rest ≠ 'c' :: '|' :: r) (hg' : ∀ r, rest ≠ 'g' :: '|' :: r)
    (hms' : ∀ r, rest ≠ 'm' :: 's' :: '|' :: r) :
    (parseLoop rest ⟨name, meas, [], .Unknown, .ReadingType⟩).type = .Unknown := by
  match rest with
  | [] => simp [parseLoop]
  | [c] =>
    have h1 : c ≠ 'c' := fun e => hc (by simp [e])
    have h2 : c ≠ 'g' := fun e => hg (by simp [e])
    by_cases h3 : c = 'm' <;> simp [parseLoop, h1, h2, h3]
  | [c, x] =>
    by_cases h1 : c = 'c'
    · have hx : x ≠ '|' := fun e => hc' [] (by simp [h1, e])
      simp [parseLoop, h1, hx]
    · by_cases h2 : c = 'g'
      · have hx : x ≠ '|' := fun e => hg' [] (by simp [h2, e])
        simp [parseLoop, h2, hx]
      · by_cases h3 : c = 'm'
        · have hx : x ≠ 's' := fun e => hms (by simp [h3, e])
          simp [parseLoop, h3, hx]
        · simp [parseLoop, h1, h2, h3]
  | c :: x :: y :: r =>
    by_cases h1 : c = 'c'
    · have hx : x ≠ '|' := fun e => hc' (y :: r) (by simp [h1, e])
      simp [parseLoop, h1, hx]
    · by_cases h2 : c = 'g'
      · have hx : x ≠ '|' := fun e => hg' (y :: r) (by simp [h2, e])
        simp [parseLoop, h2, hx]
      · by_cases h3 : c = 'm'
        · by_cases hx : x = 's'
          · have hy : y ≠ '|' := fun e => hms' r (by simp [h3, hx, e])
            simp only [parseLoop, h3, hx, if_true]
            cases r <;> simp [parseLoop, hy]
          · simp [parseLoop, h3, hx]
        · simp [parseLoop, h1, h2, h3]

/-- The effect of a datagram that is not recognized, on any table: the step
returns, the sentinel entry is created as a `Count` entry with count `1` or
has its count incremented, and no other key is touched. -/
theorem process_unknown_effect {D : Type} (ops : NumOps D) (one : D)
    (h1 : ops.stod "1".toList = some one) (t : Table D) (d : List Char)
    (hu : (parse d).type = .Unknown) :
    ∃ t', process ops t d = some t' ∧
      (lookup unknown_name t = none →
        lookup unknown_name t' = some ⟨.Count, 1, ops.zero⟩) ∧
      (∀ m, lookup unknown_name t = some m →
        ∃ m', lookup unknown_name t' = some m' ∧ m'.type = m.type ∧
          m'.count = (m.count + 1) % SIZE_T_MOD ∧
          (m.count + 1 < 2 ^ 64 → m'.count = m.count + 1)) ∧
      (∀ k, k ≠ unknown_name → lookup k t' = lookup k t) := by
  have hc : c_str "1".toList = "1".toList := by rfl
  obtain ⟨t', m', ht', hm', hl⟩ := process_unknown_some ops t d one hu h1
  refine ⟨t', ht', ?_, ?_, ?_⟩
  · intro hnone
    rw [hnone, Option.getD_none,
      update_of_count ops _ _ one (Or.inr rfl) (by rw [hc, h1]), Option.some.injEq] at hm'
    have hl' := hl unknown_name
    simp only [if_true, ← hm', Metric.new, one_mod] at hl'
    exact hl'
  · intro m hsome
    rw [hsome, Option.getD_some] at hm'
    obtain ⟨hcount, htype⟩ := update_count ops m m' _ hm'
    refine ⟨m', by simpa using hl unknown_name, htype, hcount, ?_⟩
    intro hlt
    rw [hcount, Nat.mod_eq_of_lt (by simpa [SIZE_T_MOD] using hlt)]
  · intro k hk
    simpa [hk] using hl k

/-- After a type token, a bar is stored as the first byte of the tags, the byte
that follows it is skipped, and the bytes after that one are appended. -/
theorem parseLoop_after_type (name meas tags : List Char) (ty : MetricType) (st : IOState)
    (hst : st = .ReadingTypeMS ∨ st = .ReadingTypeC ∨ st = .ReadingTypeG) :
    parseLoop ('|' :: tags) ⟨name, meas, [], ty, st⟩ =
      ⟨name, meas, '|' :: tags.tail, ty, .ReadingTags⟩ := by
  rcases hst with h | h | h <;> subst h <;> cases tags <;> simp [parseLoop, parseLoop_tags]

/-- The parse of `name ":" measurement "|" t "|" tags` for the three type
tokens. -/
theorem parse_tagged (name meas tags : List Char) (hn : ':' ∉ name) (hm : '|' ∉ meas) :
    parse (name ++ ':' :: (meas ++ '|' :: 'c' :: '|' :: tags)) =
        ⟨name, meas, '|' :: tags.tail, .Count, .ReadingTags⟩ ∧
    parse (name ++ ':' :: (meas ++ '|' :: 'g' :: '|' :: tags)) =
        ⟨name, meas, '|' :: tags.tail, .Gauge, .ReadingTags⟩ ∧
    parse (name ++ ':' :: (meas ++ '|' :: 'm' :: 's' :: '|' :: tags)) =
        ⟨name, meas, '|' :: tags.tail, .Timing, .ReadingTags⟩ := by
  refine ⟨?_, ?_, ?_⟩ <;> rw [parse_head name _ _ hn hm]
  · have h := parseLoop_after_type name meas tags .Count .ReadingTypeC (by simp)
    cases tags <;> simp_all [parseLoop]
  · have h := parseLoop_after_type name meas tags .Gauge .ReadingTypeG (by simp)
    cases tags <;> simp_all [parseLoop]
  · have h := parseLoop_after_type name meas tags .Timing .ReadingTypeMS (by simp)
    cases tags <;> simp_all [parseLoop]

/-! ## Repeating the datagram `x:5|c` -/

/-- The first `x:5|c` on the empty table creates the entry of key `x`. -/
theorem process_x5c_empty {D : Type} (ops : NumOps D) (v : D)
    (h : ops.stod "5".toList = some v) :
    process ops [] "x:5|c".toList = some [("x".toList, ⟨.Count, 1, ops.zero⟩)] := by
  have hp : parse "x:5|c".toList = ⟨"x".toList, "5".toList, [], .Count, .ReadingTypeC⟩ := by
    rfl
  have hc : c_str "5".toList = "5".toList := by rfl
  have hu : (parse "x:5|c".toList).type ≠ .Unknown := by rw [hp]; decide
  rw [process_recognized ops _ _ hu, hp]
  simp only [updateAt, emplace, lookup, insertSorted, modify, Metric.update, Metric.new,
    List.append_nil, hc, h]
  simp [SIZE_T_MOD]

/-- A further `x:5|c` on the table that holds only the entry of key `x`. -/
theorem process_x5c_single {D : Type} (ops : NumOps D) (v : D)
    (h : ops.stod "5".toList = some v) (c : Nat) :
    process ops [("x".toList, ⟨.Count, c, ops.zero⟩)] "x:5|c".toList =
      some [("x".toList, ⟨.Count, (c + 1) % SIZE_T_MOD, ops.zero⟩)] := by
  have hp : parse "x:5|c".toList = ⟨"x".toList, "5".toList, [], .Count, .ReadingTypeC⟩ := by
    rfl
  have hc : c_str "5".toList = "5".toList := by rfl
  have hu : (parse "x:5|c".toList).type ≠ .Unknown := by rw [hp]; decide
  rw [process_recognized ops _ _ hu, hp]
  simp only [updateAt, emplace, lookup, modify, Metric.update, List.append_nil, hc, h,
    if_true]

/-- Repetitions on the table that holds only the entry of key `x`. -/
theorem processAll_x5c_single {D : Type} (ops : NumOps D) (v : D)
    (h : ops.stod "5".toList = some v) (N : Nat) :
    ∀ c : Nat,
      processAll ops [("x".toList, ⟨.Count, c % SIZE_T_MOD, ops.zero⟩)]
          (List.replicate N "x:5|c".toList) =
        some [("x".toList, ⟨.Count, (c + N) % SIZE_T_MOD, ops.zero⟩)] := by
  induction N with
  | zero => intro c; simp [processAll]
  | succ n ih =>
    intro c
    have e : (c % SIZE_T_MOD + 1) % SIZE_T_MOD = (c + 1) % SIZE_T_MOD := by
      simp [Nat.add_mod]
    rw [List.replicate_succ]
    simp only [processAll, process_x5c_single ops v h, e]
    rw [ih (c + 1)]
    congr 5
    omega

/-- Repetitions from the empty table: after at least one datagram the table
holds the single entry of key `x`, whose count is the number of datagrams
reduced modulo `2 ^ 64`. -/
theorem processAll_x5c {D : Type} (ops : NumOps D) (v : D)
    (h : ops.stod "5".toList = some v) (N : Nat) :
    processAll ops [] (List.replicate (N + 1) "x:5|c".toList) =
      some [("x".toList, ⟨.Count, (N + 1) % SIZE_T_MOD, ops.zero⟩)] := by
  rw [List.replicate_succ]
  simp only [processAll, process_x5c_empty ops v h]
  have e : (1 : Nat) = 1 % SIZE_T_MOD := by simp [SIZE_T_MOD]
  conv_lhs => rw [e]
  rw [processAll_x5c_single ops v h N 1, Nat.add_comm]

/-! ## The order of the keys -/

/-- Two bytes with the same value are the same byte. -/
theorem char_eq_of_toNat (a b : Char) (h : a.toNat = b.toNat) : a = b := by
  have e := congrArg Char.ofNat h
  simpa [Char.ofNat_toNat] using e

/-- No key comes before itself. -/
theorem strLt_irrefl (a : List Char) : strLt a a = false := by
  induction a with
  | nil => rfl
  | cons c cs ih => simp [strLt, ih]

/-- The order of the keys is transitive. -/
theorem strLt_trans : ∀ (a b c : List Char),
    strLt a b = true → strLt b c = true → strLt a c = true
  | [], [], _, h, _ => by simp [strLt] at h
  | [], _ :: _, [], _, h => by simp [strLt] at h
  | [], _ :: _, _ :: _, _, _ => by simp [strLt]
  | _ :: _, [], _, h, _ => by simp [strLt] at h
  | _ :: _, _ :: _, [], _, h => by simp [strLt] at h
  | x :: xs, y :: ys, z :: zs, h1, h2 => by
    simp only [strLt] at h1 h2 ⊢
    by_cases hxy : x.toNat < y.toNat
    · by_cases hyz : y.toNat < z.toNat
      · have : x.toNat < z.toNat := by omega
        simp [this]
      · by_cases hzy : z.toNat < y.toNat
        · simp [hyz, hzy] at h2
        · have : x.toNat < z.toNat := by omega
          simp [this]
    · by_cases hyx : y.toNat < x.toNat
      · simp [hxy, hyx] at h1
      · simp only [hxy, hyx, if_false] at h1
        by_cases hyz : y.toNat < z.toNat
        · have : x.toNat < z.toNat := by omega
          simp [this]
        · by_cases hzy : z.toNat < y.toNat
          · simp [hyz, hzy] at h2
          · simp only [hyz, hzy, if_false] at h2
            have e1 : ¬ x.toNat < z.toNat := by omega
            have e2 : ¬ z.toNat < x.toNat := by omega
            simp only [e1, e2, if_false]
            exact strLt_trans xs ys zs h1 h2

/-- Of two different keys, one comes before the other. -/
theorem strLt_total : ∀ (a b : List Char), a ≠ b → strLt a b = false → strLt b a = true
  | [], [], h, _ => by simp at h
  | [], _ :: _, _, h => by simp [strLt] at h
  | _ :: _, [], _, _ => by simp [strLt]
  | x :: xs, y :: ys, hne, h => by
    simp only [strLt] at h ⊢
    by_cases hxy : x.toNat < y.toNat
    · simp [hxy] at h
    · by_cases hyx : y.toNat < x.toNat
      · simp [hyx]
      · simp only [hxy, hyx, if_false] at h ⊢
        have e : x = y := char_eq_of_toNat x y (by omega)
        subst e
        exact strLt_total xs ys (fun e => hne (by rw [e])) h

/-- What `lookup` finds is an entry of the table. -/
theorem mem_of_lookup {D : Type} (k : List Char) (m : Metric D) (t : Table D)
    (h : lookup k t = some m) : (k, m) ∈ t := by
  induction t with
  | nil => simp [lookup] at h
  | cons e t ih =>
    obtain ⟨k1, m1⟩ := e
    by_cases hk : k1 = k
    · simp [lookup, hk] at h
      simp [hk, h]
    · simp only [lookup, hk, if_false] at h
      exact List.mem_cons_of_mem _ (ih h)

/-- A key that `lookup` does not find is the key of no entry. -/
theorem not_mem_of_lookup_none {D : Type} (k : List Char) (t : Table D)
    (h : lookup k t = none) : ∀ e ∈ t, e.1 ≠ k := by
  induction t with
  | nil => intro e he; simp at he
  | cons e0 t ih =>
    obtain ⟨k1, m1⟩ := e0
    by_cases hk : k1 = k
    · simp [lookup, hk] at h
    · simp only [lookup, hk, if_false] at h
      intro e he
      rcases List.mem_cons.mp he with rfl | he'
      · exact hk
      · exact ih h e he'

/-- In a table with ascending keys, every entry is the one `lookup` finds. -/
theorem lookup_of_mem {D : Type} (k : List Char) (m : Metric D) (t : Table D)
    (hs : keysAscending t) (h : (k, m) ∈ t) : lookup k t = some m := by
  induction t with
  | nil => simp at h
  | cons e t ih =>
    obtain ⟨k1, m1⟩ := e
    unfold keysAscending at hs
    rw [List.pairwise_cons] at hs
    rcases List.mem_cons.mp h with e | h'
    · simp only [Prod.mk.injEq] at e
      simp [lookup, e.1, e.2]
    · have hlt := hs.1 (k, m) h'
      have hne : k1 ≠ k := by
        intro e
        rw [e, strLt_irrefl] at hlt
        exact Bool.false_ne_true hlt
      simp only [lookup, hne, if_false]
      exact ih hs.2 h'

/-- The entries after an insertion: the new one and the old ones. -/
theorem mem_insertSorted {D : Type} (k : List Char) (m : Metric D) (t : Table D)
    (e : List Char × Metric D) : e ∈ insertSorted k m t ↔ e = (k, m) ∨ e ∈ t := by
  induction t with
  | nil => simp [insertSorted]
  | cons e0 t ih =>
    obtain ⟨k1, m1⟩ := e0
    by_cases hlt : strLt k k1 = true
    · simp [insertSorted, hlt]
    · simp only [insertSorted, hlt, if_false, List.mem_cons, ih, Bool.false_eq_true]
      tauto

/-- Insertion of an absent key keeps the keys ascending. -/
theorem insertSorted_ascending {D : Type} (k : List Char) (m : Metric D) (t : Table D)
    (hs : keysAscending t) (h : lookup k t = none) :
    keysAscending (insertSorted k m t) := by
  induction t with
  | nil => simp [insertSorted, keysAscending]
  | cons e0 t ih =>
    obtain ⟨k1, m1⟩ := e0
    have hne : k1 ≠ k := not_mem_of_lookup_none k _ h (k1, m1) (by simp)
    have h' : lookup k t = none := by
      simpa [lookup, hne] using h
    unfold keysAscending at hs ⊢
    rw [List.pairwise_cons] at hs
    by_cases hlt : strLt k k1 = true
    · simp only [insertSorted, hlt, if_true]
      rw [List.pairwise_cons, List.pairwise_cons]
      refine ⟨?_, hs⟩
      intro e he
      rcases List.mem_cons.mp he with rfl | he'
      · exact hlt
      · exact strLt_trans k k1 e.1 hlt (hs.1 e he')
    · simp only [insertSorted, hlt, if_false, Bool.false_eq_true]
      rw [List.pairwise_cons]
      refine ⟨?_, ih hs.2 h'⟩
      intro e he
      rcases (mem_insertSorted k m t e).mp he with rfl | he'
      · exact strLt_total k k1 (fun e => hne e.symm) (by simpa using hlt)
      · exact hs.1 e he'

/-- The call `emplace` keeps the keys ascending. -/
theorem emplace_ascending {D : Type} (t : Table D) (k : List Char) (m : Metric D)
    (hs : keysAscending t) : keysAscending (emplace t k m) := by
  unfold emplace
  cases h : lookup k t with
  | none => exact insertSorted_ascending k m t hs h
  | some m1 => exact hs

/-- An in-place change keeps the keys of the table. -/
theorem modify_keys {D : Type} (k : List Char) (f : Metric D → Option (Metric D)) :
    ∀ (t t' : Table D), modify k f t = some t' → t'.map Prod.fst = t.map Prod.fst := by
  intro t
  induction t with
  | nil => intro t' h; simp [modify] at h; simp [← h]
  | cons e0 t ih =>
    obtain ⟨k1, m1⟩ := e0
    intro t' h
    by_cases hk : k1 = k
    · simp only [modify, hk, if_true] at h
      cases hf : f m1 with
      | none => simp [hf] at h
      | some m' =>
        simp only [hf, Option.some.injEq] at h
        simp [← h, hk]
    · simp only [modify, hk, if_false] at h
      cases hm : modify k f t with
      | none => simp [hm] at h
      | some t1 =>
        simp only [hm, Option.some.injEq] at h
        simp [← h, ih t1 hm]

/-- The order of a table is a property of its list of keys. -/
theorem keysAscending_iff {D : Type} (t : Table D) :
    keysAscending t ↔ List.Pairwise (fun a b => strLt a b = true) (t.map Prod.fst) := by
  unfold keysAscending
  rw [List.pairwise_map]

/-- An in-place change keeps the keys ascending. -/
theorem modify_ascending {D : Type} (k : List Char) (f : Metric D → Option (Metric D))
    (t t' : Table D) (h : modify k f t = some t') (hs : keysAscending t) :
    keysAscending t' := by
  rw [keysAscending_iff] at hs ⊢
  rw [modify_keys k f t t' h]
  exact hs

/-! ## The sum of the counts -/

/-- Insertion adds the count of the new entry to the sum. -/
theorem countSum_insertSorted {D : Type} (k : List Char) (m : Metric D) (t : Table D) :
    countSum (insertSorted k m t) = countSum t + m.count := by
  induction t with
  | nil => simp [insertSorted, countSum]
  | cons e0 t ih =>
    obtain ⟨k1, m1⟩ := e0
    by_cases hlt : strLt k k1 = true
    · simp [insertSorted, hlt, countSum]; omega
    · unfold countSum at ih ⊢
      simp only [insertSorted, hlt, if_false, List.map_cons, List.sum_cons, ih,
        Bool.false_eq_true]
      omega

/-- The call `emplace` with a fresh `Metric`, whose count is `0`, keeps the sum. -/
theorem countSum_emplace_new {D : Type} (ops : NumOps D) (t : Table D) (k : List Char)
    (ty : MetricType) : countSum (emplace t k (Metric.new ops ty)) = countSum t := by
  unfold emplace
  cases h : lookup k t with
  | none => simp [countSum_insertSorted, Metric.new]
  | some m1 => rfl

/-- An in-place change moves the sum by the change of the one count. -/
theorem countSum_modify {D : Type} (k : List Char) (f : Metric D → Option (Metric D))
    (t t' : Table D) (m m' : Metric D) (h : modify k f t = some t')
    (hl : lookup k t = some m) (hf : f m = some m') :
    countSum t' + m.count = countSum t + m'.count := by
  induction t generalizing t' with
  | nil => simp [lookup] at hl
  | cons e0 t ih =>
    obtain ⟨k1, m1⟩ := e0
    by_cases hk : k1 = k
    · simp only [lookup, hk, if_true, Option.some.injEq] at hl
      subst hl
      simp only [modify, hk, if_true, hf, Option.some.injEq] at h
      subst h
      simp [countSum]; omega
    · simp only [lookup, hk, if_false] at hl
      simp only [modify, hk, if_false] at h
      cases hm : modify k f t with
      | none => simp [hm] at h
      | some t1 =>
        simp only [hm, Option.some.injEq] at h
        subst h
        have := ih t1 hm hl
        unfold countSum at this ⊢
        simp only [List.map_cons, List.sum_cons]
        omega

/-- The count of an entry is at most the sum of the counts. -/
theorem count_le_countSum {D : Type} (k : List Char) (m : Metric D) (t : Table D)
    (h : lookup k t = some m) : m.count ≤ countSum t := by
  induction t with
  | nil => simp [lookup] at h
  | cons e0 t ih =>
    obtain ⟨k1, m1⟩ := e0
    by_cases hk : k1 = k
    · simp only [lookup, hk, if_true, Option.some.injEq] at h
      subst h
      simp [countSum]
    · simp only [lookup, hk, if_false] at h
      have := ih h
      unfold countSum at this ⊢
      simp only [List.map_cons, List.sum_cons]
      omega

/-! ## The effect of one datagram -/

/-- After `emplace`, the `operator[]` of the next statement finds the key. -/
theorem updateAt_emplace_eq {D : Type} (ops : NumOps D) (t : Table D) (k str : List Char)
    (m0 : Metric D) :
    updateAt ops (emplace t k m0) k str =
      modify k (fun m => Metric.update ops m str) (emplace t k m0) := by
  have hl : lookup k (emplace t k m0) = some ((lookup k t).getD m0) := by
    simp [lookup_emplace]
  have he : emplace (emplace t k m0) k (Metric.new ops .Unknown) = emplace t k m0 := by
    unfold emplace at hl ⊢
    simp only [hl]
  simp [updateAt, he]

/-- Every datagram whose step returns has updated one key, the aggregation key
of a recognized datagram or the sentinel key of any other: the entry of that
key is the old entry, or a fresh one of a type other than `Unknown`, after
`Metric::update`; no other key is touched; ascending keys stay ascending; and
the sum of the counts moves by the change of that one count. -/
theorem process_effect {D : Type} (ops : NumOps D) (t t' : Table D) (d : List Char)
    (h : process ops t d = some t') :
    ∃ (key str : List Char) (ty : MetricType) (m' : Metric D),
      ty ≠ .Unknown ∧
      (((parse d).type ≠ .Unknown ∧ key = (parse d).name ++ (parse d).tags ∧
          ty = (parse d).type ∧ str = (parse d).measurement) ∨
        ((parse d).type = .Unknown ∧ key = unknown_name ∧ ty = .Count ∧
          str = "1".toList)) ∧
      Metric.update ops ((lookup key t).getD (Metric.new ops ty)) str = some m' ∧
      (∀ k', lookup k' t' = if k' = key then some m' else lookup k' t) ∧
      (keysAscending t → keysAscending t') ∧
      countSum t' + ((lookup key t).getD (Metric.new ops ty)).count =
        countSum t + m'.count := by
  have main : ∀ (key str : List Char) (ty : MetricType),
      updateAt ops (emplace t key (Metric.new ops ty)) key str = some t' →
      ∃ m' : Metric D,
        Metric.update ops ((lookup key t).getD (Metric.new ops ty)) str = some m' ∧
        (∀ k', lookup k' t' = if k' = key then some m' else lookup k' t) ∧
        (keysAscending t → keysAscending t') ∧
        countSum t' + ((lookup key t).getD (Metric.new ops ty)).count =
          countSum t + m'.count := by
    intro key str ty hu
    have hl : lookup key (emplace t key (Metric.new ops ty)) =
        some ((lookup key t).getD (Metric.new ops ty)) := by
      simp [lookup_emplace]
    cases hm : Metric.update ops ((lookup key t).getD (Metric.new ops ty)) str with
    | none =>
      rw [updateAt_emplace_none ops t key str _ hm] at hu
      exact absurd hu (by simp)
    | some m' =>
      obtain ⟨t'', ht'', hl''⟩ := updateAt_emplace_some ops t key str _ m' hm
      rw [hu, Option.some.injEq] at ht''
      subst ht''
      rw [updateAt_emplace_eq] at hu
      refine ⟨m', rfl, hl'', ?_, ?_⟩
      · intro hs
        exact modify_ascending key _ _ _ hu (emplace_ascending t key _ hs)
      · have := countSum_modify key _ _ _ _ m' hu hl hm
        rw [countSum_emplace_new] at this
        exact this
  by_cases hu : (parse d).type = .Unknown
  · rw [process_unknown ops t d hu] at h
    obtain ⟨m', h1, h2, h3, h4⟩ := main unknown_name "1".toList .Count h
    exact ⟨unknown_name, "1".toList, .Count, m', by decide,
      Or.inr ⟨hu, rfl, rfl, rfl⟩, h1, h2, h3, h4⟩
  · rw [process_recognized ops t d hu] at h
    obtain ⟨m', h1, h2, h3, h4⟩ := main _ _ _ h
    exact ⟨_, _, _, m', hu, Or.inl ⟨hu, rfl, rfl, rfl⟩, h1, h2, h3, h4⟩

/-- An update that returns has converted its argument and has applied the rule
of the type stored in the entry. -/
theorem update_rules {D : Type} (ops : NumOps D) (m m' : Metric D) (str : List Char)
    (h : Metric.update ops m str = some m') :
    ∃ v, ops.stod (c_str str) = some v ∧ m'.type = m.type ∧
      m'.count = (m.count + 1) % SIZE_T_MOD ∧
      (m.type = .Unknown ∨ m.type = .Count → m'.value = m.value) ∧
      (m.type = .Gauge → m'.value = v) ∧
      (m.type = .Timing → m'.value = ops.add m.value v) := by
  unfold Metric.update at h
  cases hs : ops.stod (c_str str) with
  | none => simp [hs] at h
  | some v =>
    rw [hs] at h
    refine ⟨v, rfl, ?_⟩
    cases ht : m.type <;> simp [ht] at h <;> subst h <;> simp [ht]

/-! ## The shape of the parsed tags -/

/-- From a state other than `ReadingTags` and with no tags yet, the loop ends
with no tags or with tags that start with a bar. -/
theorem parseLoop_tags_shape (l : List Char) :
    ∀ (n m : List Char) (ty : MetricType) (st : IOState), st ≠ .ReadingTags →
      (parseLoop l ⟨n, m, [], ty, st⟩).tags = [] ∨
        ∃ r, (parseLoop l ⟨n, m, [], ty, st⟩).tags = '|' :: r := by
  induction l with
  | nil => intro n m ty st _; left; simp [parseLoop]
  | cons chr rest ih =>
    intro n m ty st hst
    cases st with
    | ReadingName =>
      by_cases hc : chr = ':'
      · simpa [parseLoop, hc] using ih n m ty .ReadingMeasurement (by decide)
      · simpa [parseLoop, hc] using ih (n ++ [chr]) m ty .ReadingName (by decide)
    | ReadingMeasurement =>
      by_cases hc : chr = '|'
      · simpa [parseLoop, hc] using ih n m ty .ReadingType (by decide)
      · simpa [parseLoop, hc] using ih n (m ++ [chr]) ty .ReadingMeasurement (by decide)
    | ReadingType =>
      by_cases h1 : chr = 'c'
      · simpa [parseLoop, h1] using ih n m .Count .ReadingTypeC (by decide)
      · by_cases h2 : chr = 'g'
        · simpa [parseLoop, h2] using ih n m .Gauge .ReadingTypeG (by decide)
        · by_cases h3 : chr = 'm'
          · simpa [parseLoop, h3] using ih n m ty .ReadingTypeM (by decide)
          · left; simp [parseLoop, h1, h2, h3]
    | ReadingTypeM =>
      by_cases hc : chr = 's'
      · simpa [parseLoop, hc] using ih n m .Timing .ReadingTypeMS (by decide)
      · left; simp [parseLoop, hc]
    | ReadingTypeMS =>
      by_cases hc : chr = '|'
      · right; cases rest <;> simp [parseLoop, hc, parseLoop_tags]
      · left; cases rest <;> simp [parseLoop, hc]
    | ReadingTypeG =>
      by_cases hc : chr = '|'
      · right; cases rest <;> simp [parseLoop, hc, parseLoop_tags]
      · left; cases rest <;> simp [parseLoop, hc]
    | ReadingTypeC =>
      by_cases hc : chr = '|'
      · right; cases rest <;> simp [parseLoop, hc, parseLoop_tags]
      · left; cases rest <;> simp [parseLoop, hc]
    | ReadingTags => exact absurd rfl hst

/-- The parsed tags of any datagram are empty or start with a bar. -/
theorem parse_tags_shape (d : List Char) :
    (parse d).tags = [] ∨ ∃ r, (parse d).tags = '|' :: r :=
  parseLoop_tags_shape d [] [] .Unknown .ReadingName (by decide)

/-- The aggregation key of a datagram is the sentinel key exactly when the
parsed name is the sentinel key and there are no tags. -/
theorem key_eq_unknown_iff (d : List Char) :
    (parse d).name ++ (parse d).tags = unknown_name ↔
      (parse d).name = unknown_name ∧ (parse d).tags = [] := by
  constructor
  · intro h
    rcases parse_tags_shape d with h0 | ⟨r, hr⟩
    · rw [h0, List.append_nil] at h
      exact ⟨h, h0⟩
    · exfalso
      have hmem : '|' ∈ (parse d).name ++ (parse d).tags := by
        rw [hr]; simp
      rw [h] at hmem
      revert hmem
      decide
  · rintro ⟨h1, h2⟩
    rw [h1, h2, List.append_nil]

/-! ## Invariants of the tables built from the empty one -/

/-- While the sum of the counts is below `2 ^ 64 - 1`, a step that returns adds
exactly one to it. -/
theorem process_countSum {D : Type} (ops : NumOps D) (t t' : Table D) (d : List Char)
    (h : process ops t d = some t') (hb : countSum t + 1 < 2 ^ 64) :
    countSum t' = countSum t + 1 := by
  obtain ⟨key, str, ty, m', _, _, hm', _, _, hsum⟩ := process_effect ops t t' d h
  obtain ⟨hc, _⟩ := update_count ops _ m' str hm'
  have hle : ((lookup key t).getD (Metric.new ops ty)).count ≤ countSum t := by
    cases hl : lookup key t with
    | none => simp [Metric.new]
    | some m0 => simpa using count_le_countSum key m0 t hl
  rw [Nat.mod_eq_of_lt (by simp only [SIZE_T_MOD]; omega)] at hc
  omega

/-- While fewer than `2 ^ 64` counts have been made, the sum of the counts
grows by the number of datagrams. -/
theorem processAll_countSum {D : Type} (ops : NumOps D) (ds : List (List Char)) :
    ∀ (t t' : Table D), processAll ops t ds = some t' →
      countSum t + ds.length < 2 ^ 64 → countSum t' = countSum t + ds.length := by
  induction ds with
  | nil =>
    intro t t' h _
    simp only [processAll, Option.some.injEq] at h
    simp [← h]
  | cons d ds ih =>
    intro t t' h hb
    simp only [processAll] at h
    simp only [List.length_cons] at hb ⊢
    cases hp : process ops t d with
    | none => simp [hp] at h
    | some t1 =>
      simp only [hp] at h
      have h1 := process_countSum ops t t1 d hp (by omega)
      have h2 := ih t1 t' h (by omega)
      omega

/-- A step keeps these two facts about every entry: the type is not `Unknown`,
and a `Count` entry has the value `0`. -/
theorem process_kinds {D : Type} (ops : NumOps D) (t t' : Table D) (d : List Char)
    (h : process ops t d = some t') (hs : keysAscending t)
    (hinv : ∀ e ∈ t, e.2.type ≠ .Unknown ∧ (e.2.type = .Count → e.2.value = ops.zero)) :
    ∀ e ∈ t', e.2.type ≠ .Unknown ∧ (e.2.type = .Count → e.2.value = ops.zero) := by
  obtain ⟨key, str, ty, m', hty, _, hm', hl, hasc, _⟩ := process_effect ops t t' d h
  obtain ⟨v, _, htype, _, hval, _, _⟩ := update_rules ops _ m' str hm'
  intro e he
  obtain ⟨k, m⟩ := e
  have hlk := lookup_of_mem k m t' (hasc hs) he
  rw [hl k] at hlk
  by_cases hk : k = key
  · simp only [hk, if_true, Option.some.injEq] at hlk
    subst hlk
    have h0 : ((lookup key t).getD (Metric.new ops ty)).type ≠ .Unknown ∧
        (((lookup key t).getD (Metric.new ops ty)).type = .Count →
          ((lookup key t).getD (Metric.new ops ty)).value = ops.zero) := by
      cases hl0 : lookup key t with
      | none => simp [Metric.new, hty]
      | some m0 => simpa using hinv (key, m0) (mem_of_lookup key m0 t hl0)
    refine ⟨by simpa [htype] using h0.1, ?_⟩
    intro hc
    simp only at hc
    rw [htype] at hc
    simp only
    rw [hval (Or.inr hc)]
    exact h0.2 hc
  · simp only [hk, if_false] at hlk
    exact hinv (k, m) (mem_of_lookup k m t hlk)

/-- While the sum of the counts is below `2 ^ 64 - 1`, a step keeps every
count at `1` or more. -/
theorem process_counts_pos {D : Type} (ops : NumOps D) (t t' : Table D) (d : List Char)
    (h : process ops t d = some t') (hs : keysAscending t)
    (hb : countSum t + 1 < 2 ^ 64) (hinv : ∀ e ∈ t, 1 ≤ e.2.count) :
    ∀ e ∈ t', 1 ≤ e.2.count := by
  obtain ⟨key, str, ty, m', _, _, hm', hl, hasc, _⟩ := process_effect ops t t' d h
  obtain ⟨hc, _⟩ := update_count ops _ m' str hm'
  have hle : ((lookup key t).getD (Metric.new ops ty)).count ≤ countSum t := by
    cases hl0 : lookup key t with
    | none => simp [Metric.new]
    | some m0 => simpa using count_le_countSum key m0 t hl0
  rw [Nat.mod_eq_of_lt (by simp only [SIZE_T_MOD]; omega)] at hc
  intro e he
  obtain ⟨k, m⟩ := e
  have hlk := lookup_of_mem k m t' (hasc hs) he
  rw [hl k] at hlk
  by_cases hk : k = key
  · simp only [hk, if_true, Option.some.injEq] at hlk
    subst hlk
    simp only
    omega
  · simp only [hk, if_false] at hlk
    exact hinv (k, m) (mem_of_lookup k m t hlk)

/-- The two facts of `process_kinds` hold in every table built from one in
which they hold. -/
theorem processAll_kinds {D : Type} (ops : NumOps D) (ds : List (List Char)) :
    ∀ (t t' : Table D), processAll ops t ds = some t' → keysAscending t →
      (∀ e ∈ t, e.2.type ≠ .Unknown ∧ (e.2.type = .Count → e.2.value = ops.zero)) →
      ∀ e ∈ t', e.2.type ≠ .Unknown ∧ (e.2.type = .Count → e.2.value = ops.zero) := by
  induction ds with
  | nil =>
    intro t t' h _ hinv
    simp only [processAll, Option.some.injEq] at h
    exact h ▸ hinv
  | cons d ds ih =>
    intro t t' h hs hinv
    simp only [processAll] at h
    cases hp : process ops t d with
    | none => simp [hp] at h
    | some t1 =>
      simp only [hp] at h
      obtain ⟨_, _, _, _, _, _, _, _, hasc, _⟩ := process_effect ops t t1 d hp
      exact ih t1 t' h (hasc hs) (process_kinds ops t t1 d hp hs hinv)

/-- While fewer than `2 ^ 64` counts have been made, every count stays at `1`
or more. -/
theorem processAll_counts_pos {D : Type} (ops : NumOps D) (ds : List (List Char)) :
    ∀ (t t' : Table D), processAll ops t ds = some t' → keysAscending t →
      countSum t + ds.length < 2 ^ 64 → (∀ e ∈ t, 1 ≤ e.2.count) →
      ∀ e ∈ t', 1 ≤ e.2.count := by
  induction ds with
  | nil =>
    intro t t' h _ _ hinv
    simp only [processAll, Option.some.injEq] at h
    exact h ▸ hinv
  | cons d ds ih =>
    intro t t' h hs hb hinv
    simp only [processAll] at h
    simp only [List.length_cons] at hb
    cases hp : process ops t d with
    | none => simp [hp] at h
    | some t1 =>
      simp only [hp] at h
      obtain ⟨_, _, _, _, _, _, _, _, hasc, _⟩ := process_effect ops t t1 d hp
      have h1 := process_countSum ops t t1 d hp (by omega)
      exact ih t1 t' h (hasc hs) (by omega)
        (process_counts_pos ops t t1 d hp hs (by omega) hinv)

/-! ## The rendering -/

/-- The loop of `print_metrics` leaves the map as it found it. -/
theorem print_metrics_table {D : Type} (ops : NumOps D) (t : Table D) :
    (print_metrics ops t).1 = t := by
  induction t with
  | nil => rfl
  | cons e t ih =>
    obtain ⟨k, m⟩ := e
    simp [print_metrics, ih]

/-- The receive loop reaches the same table whatever the flags are. -/
theorem runWith_eq_processAll {D : Type} (ops : NumOps D) (ds : List (List Char × Bool)) :
    ∀ t : Table D, runWith ops t ds = processAll ops t (ds.map Prod.fst) := by
  induction ds with
  | nil => intro t; rfl
  | cons e ds ih =>
    obtain ⟨d, render⟩ := e
    intro t
    simp only [runWith, List.map_cons, processAll]
    cases hp : process ops t d with
    | none => rfl
    | some t1 =>
      cases render
      · simpa using ih t1
      · simpa [print_metrics_table] using ih t1

/-! ## Claims -/

/-- C1: for a name without a colon and a measurement without a bar, the datagram
`name ":" measurement "|" t` with `t` one of `c`, `g`, `ms` is parsed from the
state `ReadingName` into that name, that measurement, the type `Count`,
`Gauge`, `Timing` respectively (so the parse is a success), and no tags. -/
theorem C1_parse_plain (name meas : List Char) (hn : ':' ∉ name) (hm : '|' ∉ meas) :
    parse (name ++ ":".toList ++ meas ++ "|".toList ++ "c".toList) =
        ⟨name, meas, [], .Count, .ReadingTypeC⟩ ∧
    parse (name ++ ":".toList ++ meas ++ "|".toList ++ "g".toList) =
        ⟨name, meas, [], .Gauge, .ReadingTypeG⟩ ∧
    parse (name ++ ":".toList ++ meas ++ "|".toList ++ "ms".toList) =
        ⟨name, meas, [], .Timing, .ReadingTypeMS⟩ := by
  have e : ∀ t : List Char, name ++ ":".toList ++ meas ++ "|".toList ++ t =
      name ++ ':' :: (meas ++ '|' :: t) := by
    intro t; simp
  refine ⟨?_, ?_, ?_⟩ <;> rw [e, parse_head name meas _ hn hm] <;> simp [parseLoop]

/-- C1 at the datagram `x:5|c`. -/
theorem C1_parse_plain_witness :
    ':' ∉ "x".toList ∧ '|' ∉ "5".toList ∧
    parse ("x".toList ++ ":".toList ++ "5".toList ++ "|".toList ++ "ms".toList) =
        ⟨"x".toList, "5".toList, [], .Timing, .ReadingTypeMS⟩ :=
  ⟨by decide, by decide, (C1_parse_plain "x".toList "5".toList (by decide) (by decide)).2.2⟩

/-- C2 (as amended): for every `N` below `2 ^ 64`, processing `x:5|c` `N` times
from the empty table leaves, for `N ≥ 1`, exactly one entry, under key `x`, of
type `Count` and with `count = N`; for `N = 0` the table is still empty. The
conversion of the measurement `5` is assumed to return. -/
theorem C2_count_repeated {D : Type} (ops : NumOps D) (v : D)
    (h : ops.stod "5".toList = some v) (N : Nat) (hN : N < 2 ^ 64) :
    processAll ops [] (List.replicate N "x:5|c".toList) =
      some (if N = 0 then [] else [("x".toList, ⟨.Count, N, ops.zero⟩)]) := by
  cases N with
  | zero => simp [processAll]
  | succ n =>
    rw [processAll_x5c ops v h n]
    have : (n + 1) % SIZE_T_MOD = n + 1 := Nat.mod_eq_of_lt (by simpa [SIZE_T_MOD] using hN)
    simp [this]

/-- C2 (as amended) for three datagrams, in exact decimal arithmetic. -/
theorem C2_count_repeated_witness :
    decOps.stod "5".toList = some 5000000 ∧ 3 < 2 ^ 64 ∧
    processAll decOps [] (List.replicate 3 "x:5|c".toList) =
      some (if 3 = 0 then [] else [("x".toList, ⟨.Count, 3, decOps.zero⟩)]) :=
  ⟨by decide, by decide, C2_count_repeated decOps 5000000 (by decide) 3 (by decide)⟩

/-- C2 fails as stated: after `2 ^ 64` datagrams `x:5|c` the `size_t` count of
key `x` has wrapped around to `0`, which is not the number of datagrams. -/
theorem C2_count_repeated_counterexample :
    processAll decOps [] (List.replicate (2 ^ 64) "x:5|c".toList) =
      some [("x".toList, ⟨.Count, 0, 0⟩)] ∧
    (⟨.Count, 0, 0⟩ : Metric Int).count ≠ 2 ^ 64 := by
  have h := processAll_x5c decOps 5000000 (by decide) (2 ^ 64 - 1)
  have e1 : 2 ^ 64 - 1 + 1 = 2 ^ 64 := by norm_num
  have e2 : (2 : Nat) ^ 64 % SIZE_T_MOD = 0 := by simp [SIZE_T_MOD]
  rw [e1, e2] at h
  exact ⟨h, by norm_num⟩

/-- C3: a `Gauge` datagram with a numeric measurement `v`, on a table whose
entry for the datagram's key has type `Gauge`: the step returns, the count of
the entry is the previous count plus one (as a `size_t`) and its value is `v`,
whatever the value was. In particular `y:3.5|g` then `y:7|g` from the empty
table leave the single entry `y` with count `2` and the value of `7`. -/
theorem C3_gauge_last_write_wins {D : Type} (ops : NumOps D) :
    (∀ (t : Table D) (d : List Char) (m : Metric D) (v : D),
      (parse d).type = .Gauge →
      lookup ((parse d).name ++ (parse d).tags) t = some m →
      m.type = .Gauge →
      ops.stod (c_str (parse d).measurement) = some v →
      ∃ t', process ops t d = some t' ∧
        lookup ((parse d).name ++ (parse d).tags) t' =
          some ⟨.Gauge, (m.count + 1) % SIZE_T_MOD, v⟩ ∧
        (m.count + 1 < 2 ^ 64 →
          lookup ((parse d).name ++ (parse d).tags) t' = some ⟨.Gauge, m.count + 1, v⟩)) ∧
    (∀ a b : D, ops.stod "3.5".toList = some a → ops.stod "7".toList = some b →
      processAll ops [] ["y:3.5|g".toList, "y:7|g".toList] =
        some [("y".toList, ⟨.Gauge, 2, b⟩)]) := by
  constructor
  · intro t d m v hd hk hm hv
    have hu : (parse d).type ≠ .Unknown := by rw [hd]; decide
    obtain ⟨t', m', ht', hm', hl⟩ := process_recognized_some ops t d v hu hv
    have e : m' = ⟨.Gauge, (m.count + 1) % SIZE_T_MOD, v⟩ := by
      rw [hk] at hm'
      simp only [Option.getD_some, Metric.update, hv, hm, Option.some.injEq] at hm'
      exact hm'.symm
    have hl' := hl ((parse d).name ++ (parse d).tags)
    simp only [if_true, e] at hl'
    refine ⟨t', ht', hl', ?_⟩
    intro hlt
    rw [hl', Nat.mod_eq_of_lt (by simpa [SIZE_T_MOD] using hlt)]
  · intro a b ha hb
    have hp1 : parse "y:3.5|g".toList =
        ⟨"y".toList, "3.5".toList, [], .Gauge, .ReadingTypeG⟩ := by rfl
    have hp2 : parse "y:7|g".toList =
        ⟨"y".toList, "7".toList, [], .Gauge, .ReadingTypeG⟩ := by rfl
    have hc1 : c_str "3.5".toList = "3.5".toList := by rfl
    have hc2 : c_str "7".toList = "7".toList := by rfl
    have s1 := process_first ops _ _ _ _ _ _ ⟨.Gauge, 1, a⟩ hp1 (by decide)
      (by rw [update_of_gauge ops _ _ a rfl (by rw [hc1, ha]), Metric.new, one_mod])
    have s2 := process_again ops _ _ _ _ _ _ ⟨.Gauge, 1, a⟩ ⟨.Gauge, 2, b⟩ hp2 (by decide)
      (by rw [update_of_gauge ops _ _ b rfl (by rw [hc2, hb]), two_mod])
    simp only [List.append_nil] at s1 s2
    simp only [processAll, s1, s2]

/-- C3 in exact decimal arithmetic: `y:7|g` on the table left by `y:3.5|g`,
and the two datagrams from the empty table. -/
theorem C3_gauge_last_write_wins_witness :
    ((parse "y:7|g".toList).type = .Gauge ∧
      lookup ((parse "y:7|g".toList).name ++ (parse "y:7|g".toList).tags)
        [("y".toList, (⟨.Gauge, 1, 3500000⟩ : Metric Int))] = some ⟨.Gauge, 1, 3500000⟩ ∧
      (⟨.Gauge, 1, 3500000⟩ : Metric Int).type = .Gauge ∧
      decOps.stod (c_str (parse "y:7|g".toList).measurement) = some 7000000 ∧
      ∃ t', process decOps [("y".toList, ⟨.Gauge, 1, 3500000⟩)] "y:7|g".toList = some t' ∧
        lookup ((parse "y:7|g".toList).name ++ (parse "y:7|g".toList).tags) t' =
          some ⟨.Gauge, (1 + 1) % SIZE_T_MOD, 7000000⟩ ∧
        (1 + 1 < 2 ^ 64 →
          lookup ((parse "y:7|g".toList).name ++ (parse "y:7|g".toList).tags) t' =
            some ⟨.Gauge, 1 + 1, 7000000⟩)) ∧
    (decOps.stod "3.5".toList = some 3500000 ∧ decOps.stod "7".toList = some 7000000 ∧
      processAll decOps [] ["y:3.5|g".toList, "y:7|g".toList] =
        some [("y".toList, ⟨.Gauge, 2, 7000000⟩)]) :=
  ⟨⟨by decide, by decide, by decide, by decide,
      (C3_gauge_last_write_wins decOps).1 [("y".toList, ⟨.Gauge, 1, 3500000⟩)]
        "y:7|g".toList ⟨.Gauge, 1, 3500000⟩ 7000000
        (by decide) (by decide) (by decide) (by decide)⟩,
    ⟨by decide, by decide,
      (C3_gauge_last_write_wins decOps).2 3500000 7000000 (by decide) (by decide)⟩⟩

/-- C4: a `Timing` datagram with a numeric measurement `v`, on a table whose
entry for the datagram's key has type `Timing`: the step returns, the count of
the entry is the previous count plus one (as a `size_t`) and its value is the
previous value plus `v`; when the key is absent the entry is created from the
value `0`. In particular `z:10|ms` then `z:5|ms` from the empty table leave the
single entry `z` with count `2` and the value `(0 + 10) + 5`. -/
theorem C4_timing_accumulates {D : Type} (ops : NumOps D) :
    (∀ (t : Table D) (d : List Char) (m : Metric D) (v : D),
      (parse d).type = .Timing →
      lookup ((parse d).name ++ (parse d).tags) t = some m →
      m.type = .Timing →
      ops.stod (c_str (parse d).measurement) = some v →
      ∃ t', process ops t d = some t' ∧
        lookup ((parse d).name ++ (parse d).tags) t' =
          some ⟨.Timing, (m.count + 1) % SIZE_T_MOD, ops.add m.value v⟩ ∧
        (m.count + 1 < 2 ^ 64 →
          lookup ((parse d).name ++ (parse d).tags) t' =
            some ⟨.Timing, m.count + 1, ops.add m.value v⟩)) ∧
    (∀ (t : Table D) (d : List Char) (v : D),
      (parse d).type = .Timing →
      lookup ((parse d).name ++ (parse d).tags) t = none →
      ops.stod (c_str (parse d).measurement) = some v →
      ∃ t', process ops t d = some t' ∧
        lookup ((parse d).name ++ (parse d).tags) t' =
          some ⟨.Timing, 1, ops.add ops.zero v⟩) ∧
    (∀ a b : D, ops.stod "10".toList = some a → ops.stod "5".toList = some b →
      processAll ops [] ["z:10|ms".toList, "z:5|ms".toList] =
        some [("z".toList, ⟨.Timing, 2, ops.add (ops.add ops.zero a) b⟩)]) := by
  refine ⟨?_, ?_, ?_⟩
  · intro t d m v hd hk hm hv
    have hu : (parse d).type ≠ .Unknown := by rw [hd]; decide
    obtain ⟨t', m', ht', hm', hl⟩ := process_recognized_some ops t d v hu hv
    rw [hk, Option.getD_some, update_of_timing ops m _ v hm hv, Option.some.injEq] at hm'
    have hl' := hl ((parse d).name ++ (parse d).tags)
    simp only [if_true, ← hm'] at hl'
    refine ⟨t', ht', hl', ?_⟩
    intro hlt
    rw [hl', Nat.mod_eq_of_lt (by simpa [SIZE_T_MOD] using hlt)]
  · intro t d v hd hk hv
    have hu : (parse d).type ≠ .Unknown := by rw [hd]; decide
    obtain ⟨t', m', ht', hm', hl⟩ := process_recognized_some ops t d v hu hv
    rw [hk, Option.getD_none, update_of_timing ops _ _ v (by rw [hd]; rfl) hv,
      Option.some.injEq] at hm'
    have hl' := hl ((parse d).name ++ (parse d).tags)
    simp only [if_true, ← hm', Metric.new, one_mod] at hl'
    exact ⟨t', ht', hl'⟩
  · intro a b ha hb
    have hp1 : parse "z:10|ms".toList =
        ⟨"z".toList, "10".toList, [], .Timing, .ReadingTypeMS⟩ := by rfl
    have hp2 : parse "z:5|ms".toList =
        ⟨"z".toList, "5".toList, [], .Timing, .ReadingTypeMS⟩ := by rfl
    have hc1 : c_str "10".toList = "10".toList := by rfl
    have hc2 : c_str "5".toList = "5".toList := by rfl
    have s1 := process_first ops _ _ _ _ _ _ ⟨.Timing, 1, ops.add ops.zero a⟩ hp1 (by decide)
      (by rw [update_of_timing ops _ _ a rfl (by rw [hc1, ha]), Metric.new, one_mod])
    have s2 := process_again ops _ _ _ _ _ _ ⟨.Timing, 1, ops.add ops.zero a⟩
      ⟨.Timing, 2, ops.add (ops.add ops.zero a) b⟩ hp2 (by decide)
      (by rw [update_of_timing ops _ _ b rfl (by rw [hc2, hb]), two_mod])
    simp only [List.append_nil] at s1 s2
    simp only [processAll, s1, s2]

/-- C4 in exact decimal arithmetic, where the value `(0 + 10) + 5` is `15`:
`z:5|ms` on the table left by `z:10|ms`, `z:10|ms` on the empty table, and the
two datagrams from the empty table. -/
theorem C4_timing_accumulates_witness :
    ((parse "z:5|ms".toList).type = .Timing ∧
      lookup ((parse "z:5|ms".toList).name ++ (parse "z:5|ms".toList).tags)
        [("z".toList, (⟨.Timing, 1, 10000000⟩ : Metric Int))] = some ⟨.Timing, 1, 10000000⟩ ∧
      (⟨.Timing, 1, 10000000⟩ : Metric Int).type = .Timing ∧
      decOps.stod (c_str (parse "z:5|ms".toList).measurement) = some 5000000 ∧
      ∃ t', process decOps [("z".toList, ⟨.Timing, 1, 10000000⟩)] "z:5|ms".toList = some t' ∧
        lookup ((parse "z:5|ms".toList).name ++ (parse "z:5|ms".toList).tags) t' =
          some ⟨.Timing, (1 + 1) % SIZE_T_MOD, decOps.add 10000000 5000000⟩ ∧
        (1 + 1 < 2 ^ 64 →
          lookup ((parse "z:5|ms".toList).name ++ (parse "z:5|ms".toList).tags) t' =
            some ⟨.Timing, 1 + 1, decOps.add 10000000 5000000⟩)) ∧
    ((parse "z:10|ms".toList).type = .Timing ∧
      lookup ((parse "z:10|ms".toList).name ++ (parse "z:10|ms".toList).tags)
        ([] : Table Int) = none ∧
      decOps.stod (c_str (parse "z:10|ms".toList).measurement) = some 10000000 ∧
      ∃ t', process decOps [] "z:10|ms".toList = some t' ∧
        lookup ((parse "z:10|ms".toList).name ++ (parse "z:10|ms".toList).tags) t' =
          some ⟨.Timing, 1, decOps.add decOps.zero 10000000⟩) ∧
    (decOps.stod "10".toList = some 10000000 ∧ decOps.stod "5".toList = some 5000000 ∧
      decOps.add (decOps.add decOps.zero 10000000) 5000000 = 15000000 ∧
      processAll decOps [] ["z:10|ms".toList, "z:5|ms".toList] =
        some [("z".toList,
          ⟨.Timing, 2, decOps.add (decOps.add decOps.zero 10000000) 5000000⟩)]) :=
  ⟨⟨by decide, by decide, by decide, by decide,
      (C4_timing_accumulates decOps).1 [("z".toList, ⟨.Timing, 1, 10000000⟩)]
        "z:5|ms".toList ⟨.Timing, 1, 10000000⟩ 5000000
        (by decide) (by decide) (by decide) (by decide)⟩,
    ⟨by decide, by decide, by decide,
      (C4_timing_accumulates decOps).2.1 [] "z:10|ms".toList 10000000
        (by decide) (by decide) (by decide)⟩,
    ⟨by decide, by decide, by decide,
      (C4_timing_accumulates decOps).2.2 10000000 5000000 (by decide) (by decide)⟩⟩

/-- C5: a datagram without a colon, or without a bar after its first colon, on
any table: the step returns (the conversion of the default argument `"1"` is
assumed to return); the sentinel entry, if absent, is created as a `Count`
entry with count `1`, and otherwise keeps its type and has its count
incremented by one (as a `size_t`); every other key is as before, neither
created nor changed. In particular `bad` then `bad:1` from the empty table
leave the sentinel entry with count `2` and nothing else. -/
theorem C5_malformed_counts_sentinel {D : Type} (ops : NumOps D) (one : D)
    (h1 : ops.stod "1".toList = some one) :
    (∀ (t : Table D) (d : List Char),
      (':' ∉ d ∨ ∃ name rest, d = name ++ ':' :: rest ∧ ':' ∉ name ∧ '|' ∉ rest) →
      ∃ t', process ops t d = some t' ∧
        (lookup unknown_name t = none →
          lookup unknown_name t' = some ⟨.Count, 1, ops.zero⟩) ∧
        (∀ m, lookup unknown_name t = some m →
          ∃ m', lookup unknown_name t' = some m' ∧ m'.type = m.type ∧
            m'.count = (m.count + 1) % SIZE_T_MOD ∧
            (m.count + 1 < 2 ^ 64 → m'.count = m.count + 1)) ∧
        (∀ k, k ≠ unknown_name → lookup k t' = lookup k t)) ∧
    processAll ops [] ["bad".toList, "bad:1".toList] =
      some [(unknown_name, ⟨.Count, 2, ops.zero⟩)] := by
  have hc : c_str "1".toList = "1".toList := by rfl
  constructor
  · intro t d hd
    have hu : (parse d).type = .Unknown := by
      rcases hd with hd | ⟨name, rest, rfl, hn, hr⟩
      · exact parse_no_colon d hd
      · exact parse_no_bar name rest hn hr
    exact process_unknown_effect ops one h1 t d hu
  · have hp1 : (parse "bad".toList).type = .Unknown := by rfl
    have hp2 : (parse "bad:1".toList).type = .Unknown := by rfl
    have s1 := process_unknown_first ops "bad".toList one hp1 h1
    have s2 := process_unknown_again ops "bad:1".toList ⟨.Count, 1, ops.zero⟩
      ⟨.Count, 2, ops.zero⟩ hp2
      (by rw [update_of_count ops _ _ one (Or.inr rfl) (by rw [hc, h1]), two_mod])
    simp only [processAll, s1, s2]

/-- C5 in exact decimal arithmetic: `bad:1` on a table with the sentinel entry
and an entry of key `bad`. -/
theorem C5_malformed_counts_sentinel_witness :
    decOps.stod "1".toList = some 1000000 ∧
    ((':' ∉ "bad:1".toList ∨ ∃ name rest, "bad:1".toList = name ++ ':' :: rest ∧
        ':' ∉ name ∧ '|' ∉ rest) ∧
      ∃ t', process decOps
          [(unknown_name, ⟨.Count, 4, 0⟩), ("bad".toList, ⟨.Gauge, 1, 2000000⟩)]
          "bad:1".toList = some t' ∧
        (lookup unknown_name
            [(unknown_name, (⟨.Count, 4, 0⟩ : Metric Int)),
              ("bad".toList, ⟨.Gauge, 1, 2000000⟩)] = none →
          lookup unknown_name t' = some ⟨.Count, 1, decOps.zero⟩) ∧
        (∀ m, lookup unknown_name
            [(unknown_name, (⟨.Count, 4, 0⟩ : Metric Int)),
              ("bad".toList, ⟨.Gauge, 1, 2000000⟩)] = some m →
          ∃ m', lookup unknown_name t' = some m' ∧ m'.type = m.type ∧
            m'.count = (m.count + 1) % SIZE_T_MOD ∧
            (m.count + 1 < 2 ^ 64 → m'.count = m.count + 1)) ∧
        (∀ k, k ≠ unknown_name → lookup k t' =
          lookup k [(unknown_name, (⟨.Count, 4, 0⟩ : Metric Int)),
            ("bad".toList, ⟨.Gauge, 1, 2000000⟩)])) ∧
    processAll decOps [] ["bad".toList, "bad:1".toList] =
      some [(unknown_name, ⟨.Count, 2, decOps.zero⟩)] :=
  ⟨by decide,
    ⟨Or.inr ⟨"bad".toList, "1".toList, by decide, by decide, by decide⟩,
      (C5_malformed_counts_sentinel decOps 1000000 (by decide)).1 _ "bad:1".toList
        (Or.inr ⟨"bad".toList, "1".toList, by decide, by decide, by decide⟩)⟩,
    (C5_malformed_counts_sentinel decOps 1000000 (by decide)).2⟩

/-- C6 (as amended): in `name ":" measurement "|" rest`, with a name without a
colon and a measurement without a bar, a rest that is none of `c`, `g`, `ms`
and starts with none of `c|`, `g|`, `ms|` gives a parse of type `Unknown`; on
any table the step then returns (the conversion of the default argument `"1"`
is assumed to return), the sentinel entry is created with count `1` or has its
count incremented by one (as a `size_t`), no other key is created or changed,
and so none under `name` when `name` is not the sentinel key itself. -/
theorem C6_bad_type_token {D : Type} (ops : NumOps D) (one : D)
    (h1 : ops.stod "1".toList = some one) (name meas rest : List Char)
    (hn : ':' ∉ name) (hm : '|' ∉ meas)
    (hc : rest ≠ "c".toList) (hg : rest ≠ "g".toList) (hms : rest ≠ "ms".toList)
    (hc' : ∀ r, rest ≠ 'c' :: '|' :: r) (hg' : ∀ r, rest ≠ 'g' :: '|' :: r)
    (hms' : ∀ r, rest ≠ 'm' :: 's' :: '|' :: r) :
    (parse (name ++ ":".toList ++ meas ++ "|".toList ++ rest)).type = .Unknown ∧
    ∀ t : Table D,
      ∃ t', process ops t (name ++ ":".toList ++ meas ++ "|".toList ++ rest) = some t' ∧
        (lookup unknown_name t = none →
          lookup unknown_name t' = some ⟨.Count, 1, ops.zero⟩) ∧
        (∀ m, lookup unknown_name t = some m →
          ∃ m', lookup unknown_name t' = some m' ∧ m'.type = m.type ∧
            m'.count = (m.count + 1) % SIZE_T_MOD ∧
            (m.count + 1 < 2 ^ 64 → m'.count = m.count + 1)) ∧
        (∀ k, k ≠ unknown_name → lookup k t' = lookup k t) ∧
        (name ≠ unknown_name → lookup name t' = lookup name t) := by
  have e : name ++ ":".toList ++ meas ++ "|".toList ++ rest =
      name ++ ':' :: (meas ++ '|' :: rest) := by simp
  have hu : (parse (name ++ ":".toList ++ meas ++ "|".toList ++ rest)).type = .Unknown := by
    rw [e, parse_head name meas rest hn hm]
    exact parseLoop_bad_type name meas rest hc hg hms hc' hg' hms'
  refine ⟨hu, ?_⟩
  intro t
  obtain ⟨t', ht', ha, hb, hk⟩ := process_unknown_effect ops one h1 t _ hu
  exact ⟨t', ht', ha, hb, hk, fun hne => hk name hne⟩

/-- C6 (as amended) at the datagram `x:1|cc`, in exact decimal arithmetic. -/
theorem C6_bad_type_token_witness :
    decOps.stod "1".toList = some 1000000 ∧ ':' ∉ "x".toList ∧ '|' ∉ "1".toList ∧
    "cc".toList ≠ "c".toList ∧ "cc".toList ≠ "g".toList ∧ "cc".toList ≠ "ms".toList ∧
    (∀ r, "cc".toList ≠ 'c' :: '|' :: r) ∧ (∀ r, "cc".toList ≠ 'g' :: '|' :: r) ∧
    (∀ r, "cc".toList ≠ 'm' :: 's' :: '|' :: r) ∧
    (parse ("x".toList ++ ":".toList ++ "1".toList ++ "|".toList ++ "cc".toList)).type =
      .Unknown ∧
    ∀ t : Table Int,
      ∃ t', process decOps t
          ("x".toList ++ ":".toList ++ "1".toList ++ "|".toList ++ "cc".toList) = some t' ∧
        (lookup unknown_name t = none →
          lookup unknown_name t' = some ⟨.Count, 1, decOps.zero⟩) ∧
        (∀ m, lookup unknown_name t = some m →
          ∃ m', lookup unknown_name t' = some m' ∧ m'.type = m.type ∧
            m'.count = (m.count + 1) % SIZE_T_MOD ∧
            (m.count + 1 < 2 ^ 64 → m'.count = m.count + 1)) ∧
        (∀ k, k ≠ unknown_name → lookup k t' = lookup k t) ∧
        ("x".toList ≠ unknown_name → lookup "x".toList t' = lookup "x".toList t) :=
  ⟨by decide, by decide, by decide, by decide, by decide, by decide,
    fun r => by simp, fun r => by simp, fun r => by simp,
    C6_bad_type_token decOps 1000000 (by decide) "x".toList "1".toList "cc".toList
      (by decide) (by decide) (by decide) (by decide) (by decide)
      (fun r => by simp) (fun r => by simp) (fun r => by simp)⟩

/-- C6 fails as stated when the name is the sentinel key: the datagram
`<<<unknown>>>:1|x` has a bad type token, and on the empty table it creates an
entry under its own name. -/
theorem C6_bad_type_token_counterexample :
    (parse "<<<unknown>>>:1|x".toList).name = "<<<unknown>>>".toList ∧
    (parse "<<<unknown>>>:1|x".toList).type = .Unknown ∧
    lookup "<<<unknown>>>".toList ([] : Table Int) = none ∧
    process decOps [] "<<<unknown>>>:1|x".toList =
      some [("<<<unknown>>>".toList, ⟨.Count, 1, 0⟩)] := by
  decide

/-- C7 (as amended): for a name without a colon and a measurement without a
bar, the datagram `name ":" measurement "|" t "|" tags` with `t` one of `c`,
`g`, `ms` is parsed into that name, that measurement, the type of `t`, and the
tag string made of the bar itself followed by `tags` without its first byte;
the key under which a recognized datagram is aggregated is the parsed name
followed by the parsed tag string. -/
theorem C7_tag_capture (name meas tags : List Char) (hn : ':' ∉ name) (hm : '|' ∉ meas) :
    parse (name ++ ":".toList ++ meas ++ "|".toList ++ "c".toList ++ "|".toList ++ tags) =
        ⟨name, meas, '|' :: tags.tail, .Count, .ReadingTags⟩ ∧
    parse (name ++ ":".toList ++ meas ++ "|".toList ++ "g".toList ++ "|".toList ++ tags) =
        ⟨name, meas, '|' :: tags.tail, .Gauge, .ReadingTags⟩ ∧
    parse (name ++ ":".toList ++ meas ++ "|".toList ++ "ms".toList ++ "|".toList ++ tags) =
        ⟨name, meas, '|' :: tags.tail, .Timing, .ReadingTags⟩ ∧
    ∀ (D : Type) (ops : NumOps D) (t : Table D) (d : List Char),
      (parse d).type ≠ .Unknown →
      process ops t d =
        updateAt ops
          (emplace t ((parse d).name ++ (parse d).tags) (Metric.new ops (parse d).type))
          ((parse d).name ++ (parse d).tags) (parse d).measurement := by
  obtain ⟨h1, h2, h3⟩ := parse_tagged name meas tags hn hm
  refine ⟨?_, ?_, ?_, fun D ops t d h => process_recognized ops t d h⟩
  · simpa using h1
  · simpa using h2
  · simpa using h3

/-- C7 (as amended) at the datagram `x:1|c|#env:prod`. -/
theorem C7_tag_capture_witness :
    ':' ∉ "x".toList ∧ '|' ∉ "1".toList ∧
    parse ("x".toList ++ ":".toList ++ "1".toList ++ "|".toList ++ "c".toList ++ "|".toList ++
        "#env:prod".toList) =
      ⟨"x".toList, "1".toList, '|' :: "#env:prod".toList.tail, .Count, .ReadingTags⟩ :=
  ⟨by decide, by decide,
    (C7_tag_capture "x".toList "1".toList "#env:prod".toList (by decide) (by decide)).1⟩

/-- C7 fails as stated: in `x:1|c|#env:prod` the bytes after the second bar are
`#env:prod`, but the parsed tag string is `|env:prod`, and the key under which
the datagram is aggregated is `x|env:prod`, not `x#env:prod`. -/
theorem C7_tag_capture_counterexample :
    (parse "x:1|c|#env:prod".toList).tags = "|env:prod".toList ∧
    (parse "x:1|c|#env:prod".toList).tags ≠ "#env:prod".toList ∧
    process decOps [] "x:1|c|#env:prod".toList =
      some [("x|env:prod".toList, ⟨.Count, 1, 0⟩)] := by
  decide

/-- C8 (as amended): for a name without a colon and two tag suffixes that
differ after their first byte, `name ":1|c|" t1` then `name ":1|c|" t2` from
the empty table leave exactly two entries, under two different keys, each of
type `Count` with count `1`. The conversion of the measurement `1` is assumed
to return. -/
theorem C8_distinct_tags {D : Type} (ops : NumOps D) (one : D)
    (h1 : ops.stod "1".toList = some one) (name t1 t2 : List Char)
    (hn : ':' ∉ name) (ht : t1.tail ≠ t2.tail) :
    name ++ '|' :: t1.tail ≠ name ++ '|' :: t2.tail ∧
    ∃ t', processAll ops []
        [name ++ ":1|c|".toList ++ t1, name ++ ":1|c|".toList ++ t2] = some t' ∧
      t'.length = 2 ∧
      lookup (name ++ '|' :: t1.tail) t' = some ⟨.Count, 1, ops.zero⟩ ∧
      lookup (name ++ '|' :: t2.tail) t' = some ⟨.Count, 1, ops.zero⟩ := by
  have hc : c_str "1".toList = "1".toList := by rfl
  have hk : name ++ '|' :: t1.tail ≠ name ++ '|' :: t2.tail := by
    intro e
    simp at e
    exact ht e
  have hk' : ¬ (name ++ '|' :: t2.tail = name ++ '|' :: t1.tail) := fun e => hk e.symm
  have e1 : name ++ ":1|c|".toList ++ t1 = name ++ ':' :: ("1".toList ++ '|' :: 'c' :: '|' :: t1) := by
    simp
  have e2 : name ++ ":1|c|".toList ++ t2 = name ++ ':' :: ("1".toList ++ '|' :: 'c' :: '|' :: t2) := by
    simp
  have hp1 := (parse_tagged name "1".toList t1 hn (by decide)).1
  have hp2 := (parse_tagged name "1".toList t2 hn (by decide)).1
  rw [← e1] at hp1
  rw [← e2] at hp2
  have hm : ∀ m0 : Metric D, m0.type = .Count → Metric.update ops m0 "1".toList =
      some ⟨.Count, (m0.count + 1) % SIZE_T_MOD, m0.value⟩ := by
    intro m0 h0
    rw [update_of_count ops m0 _ one (Or.inr h0) (by rw [hc, h1]), h0]
  have s1 := process_first ops _ _ _ _ _ _ ⟨.Count, 1, ops.zero⟩ hp1 (by decide)
    (by rw [hm _ rfl, Metric.new, one_mod])
  have hu2 : (parse (name ++ ":1|c|".toList ++ t2)).type ≠ .Unknown := by rw [hp2]; simp
  have hm0 := hm (Metric.new ops .Count) rfl
  simp only [Metric.new, one_mod] at hm0
  refine ⟨hk, ?_⟩
  simp only [processAll, s1]
  rw [process_recognized ops _ _ hu2, hp2]
  by_cases hlt : strLt (name ++ '|' :: t2.tail) (name ++ '|' :: t1.tail) = true
  · simp only [updateAt, emplace, lookup, insertSorted, modify, hk, hk', hlt, hm0, Metric.new,
      if_true, if_false]
    exact ⟨_, rfl, rfl, by simp [lookup, hk'], by simp [lookup]⟩
  · simp only [updateAt, emplace, lookup, insertSorted, modify, hk, hk', hlt, hm0, Metric.new,
      if_true, if_false]
    exact ⟨_, rfl, rfl, by simp [lookup], by simp [lookup, hk]⟩

/-- C8 (as amended) at `x:1|c|#env:prod` and `x:1|c|#env:dev`, in exact decimal
arithmetic. -/
theorem C8_distinct_tags_witness :
    decOps.stod "1".toList = some 1000000 ∧ ':' ∉ "x".toList ∧
    "#env:prod".toList.tail ≠ "#env:dev".toList.tail ∧
    "x".toList ++ '|' :: "#env:prod".toList.tail ≠ "x".toList ++ '|' :: "#env:dev".toList.tail ∧
    ∃ t', processAll decOps []
        ["x".toList ++ ":1|c|".toList ++ "#env:prod".toList,
          "x".toList ++ ":1|c|".toList ++ "#env:dev".toList] = some t' ∧
      t'.length = 2 ∧
      lookup ("x".toList ++ '|' :: "#env:prod".toList.tail) t' =
        some ⟨.Count, 1, decOps.zero⟩ ∧
      lookup ("x".toList ++ '|' :: "#env:dev".toList.tail) t' =
        some ⟨.Count, 1, decOps.zero⟩ :=
  ⟨by decide, by decide, by decide,
    C8_distinct_tags decOps 1000000 (by decide) "x".toList "#env:prod".toList
      "#env:dev".toList (by decide) (by decide)⟩

/-- C8 fails as stated: the tag suffixes `a` and `b` are different, yet `x:1|c|a`
then `x:1|c|b` from the empty table leave a single entry, of key `x|` and
count `2`. -/
theorem C8_distinct_tags_counterexample :
    "a".toList ≠ "b".toList ∧
    processAll decOps []
        ["x".toList ++ ":1|c|".toList ++ "a".toList,
          "x".toList ++ ":1|c|".toList ++ "b".toList] =
      some [("x|".toList, ⟨.Count, 2, 0⟩)] := by
  decide

/-- C11: a recognized datagram whose step returns, on a table that already
holds an entry under the datagram's aggregation key: afterwards the entry has
the type it had, its count is the previous count plus one (as a `size_t`), and
its value follows the rule of the stored type, whatever the type token of the
datagram is: unchanged for `Unknown` and `Count`, the converted measurement
for `Gauge`, the previous value plus the converted measurement for `Timing`.
In particular `y:1|c` then `y:5|g` from the empty table leave the single entry
`y` with type `Count`, count `2` and value `0`. -/
theorem C11_kind_first_write_wins {D : Type} (ops : NumOps D) :
    (∀ (t t' : Table D) (d : List Char) (m : Metric D),
      (parse d).type ≠ .Unknown →
      lookup ((parse d).name ++ (parse d).tags) t = some m →
      process ops t d = some t' →
      ∃ m' v, lookup ((parse d).name ++ (parse d).tags) t' = some m' ∧
        ops.stod (c_str (parse d).measurement) = some v ∧
        m'.type = m.type ∧
        m'.count = (m.count + 1) % SIZE_T_MOD ∧
        (m.type = .Unknown ∨ m.type = .Count → m'.value = m.value) ∧
        (m.type = .Gauge → m'.value = v) ∧
        (m.type = .Timing → m'.value = ops.add m.value v)) ∧
    (∀ a b : D, ops.stod "1".toList = some a → ops.stod "5".toList = some b →
      processAll ops [] ["y:1|c".toList, "y:5|g".toList] =
        some [("y".toList, ⟨.Count, 2, ops.zero⟩)]) := by
  constructor
  · intro t t' d m hu hk hp
    obtain ⟨key, str, ty, m', _, hcase, hm', hl, _, _⟩ := process_effect ops t t' d hp
    rcases hcase with ⟨_, rfl, rfl, rfl⟩ | ⟨hu', _⟩
    · rw [hk, Option.getD_some] at hm'
      obtain ⟨v, hv, h1, h2, h3, h4, h5⟩ := update_rules ops m m' _ hm'
      exact ⟨m', v, by simpa using hl ((parse d).name ++ (parse d).tags), hv, h1, h2, h3, h4, h5⟩
    · exact absurd hu' hu
  · intro a b ha hb
    have hp1 : parse "y:1|c".toList =
        ⟨"y".toList, "1".toList, [], .Count, .ReadingTypeC⟩ := by rfl
    have hp2 : parse "y:5|g".toList =
        ⟨"y".toList, "5".toList, [], .Gauge, .ReadingTypeG⟩ := by rfl
    have hc1 : c_str "1".toList = "1".toList := by rfl
    have hc2 : c_str "5".toList = "5".toList := by rfl
    have s1 := process_first ops _ _ _ _ _ _ ⟨.Count, 1, ops.zero⟩ hp1 (by decide)
      (by rw [update_of_count ops _ _ a (Or.inr rfl) (by rw [hc1, ha]), Metric.new, one_mod])
    have s2 := process_again ops _ _ _ _ _ _ ⟨.Count, 1, ops.zero⟩ ⟨.Count, 2, ops.zero⟩
      hp2 (by decide)
      (by rw [update_of_count ops _ _ b (Or.inr rfl) (by rw [hc2, hb]), two_mod])
    simp only [List.append_nil] at s1 s2
    simp only [processAll, s1, s2]

/-- C11 in exact decimal arithmetic: `y:5|g` on the table left by `y:1|c`, and
the two datagrams from the empty table. -/
theorem C11_kind_first_write_wins_witness :
    ((parse "y:5|g".toList).type ≠ .Unknown ∧
      lookup ((parse "y:5|g".toList).name ++ (parse "y:5|g".toList).tags)
        [("y".toList, (⟨.Count, 1, 0⟩ : Metric Int))] = some ⟨.Count, 1, 0⟩ ∧
      process decOps [("y".toList, ⟨.Count, 1, 0⟩)] "y:5|g".toList =
        some [("y".toList, ⟨.Count, 2, 0⟩)] ∧
      ∃ m' v, lookup ((parse "y:5|g".toList).name ++ (parse "y:5|g".toList).tags)
          [("y".toList, (⟨.Count, 2, 0⟩ : Metric Int))] = some m' ∧
        decOps.stod (c_str (parse "y:5|g".toList).measurement) = some v ∧
        m'.type = (⟨.Count, 1, 0⟩ : Metric Int).type ∧
        m'.count = ((⟨.Count, 1, 0⟩ : Metric Int).count + 1) % SIZE_T_MOD ∧
        ((⟨.Count, 1, 0⟩ : Metric Int).type = .Unknown ∨
            (⟨.Count, 1, 0⟩ : Metric Int).type = .Count →
          m'.value = (⟨.Count, 1, 0⟩ : Metric Int).value) ∧
        ((⟨.Count, 1, 0⟩ : Metric Int).type = .Gauge → m'.value = v) ∧
        ((⟨.Count, 1, 0⟩ : Metric Int).type = .Timing →
          m'.value = decOps.add (⟨.Count, 1, 0⟩ : Metric Int).value v)) ∧
    (decOps.stod "1".toList = some 1000000 ∧ decOps.stod "5".toList = some 5000000 ∧
      processAll decOps [] ["y:1|c".toList, "y:5|g".toList] =
        some [("y".toList, ⟨.Count, 2, decOps.zero⟩)]) :=
  ⟨⟨by decide, by decide, by decide,
      (C11_kind_first_write_wins decOps).1 [("y".toList, ⟨.Count, 1, 0⟩)]
        [("y".toList, ⟨.Count, 2, 0⟩)] "y:5|g".toList ⟨.Count, 1, 0⟩
        (by decide) (by decide) (by decide)⟩,
    ⟨by decide, by decide,
      (C11_kind_first_write_wins decOps).2 1000000 5000000 (by decide) (by decide)⟩⟩

/-- C12 (as amended): the sentinel key is an ordinary key of the map. The
aggregation key of a datagram is the sentinel key exactly when the parsed name
is `<<<unknown>>>` and there is no tag suffix. For every datagram that parses
with a type other than `Unknown` and whose parsed name is not `<<<unknown>>>`,
the aggregation key differs from the sentinel key, and a step that returns
leaves the sentinel entry as it was, absent or present. -/
theorem C12_sentinel_key (d : List Char) (hu : (parse d).type ≠ .Unknown) :
    ((parse d).name ++ (parse d).tags = unknown_name ↔
      (parse d).name = unknown_name ∧ (parse d).tags = []) ∧
    ((parse d).name ≠ unknown_name →
      (parse d).name ++ (parse d).tags ≠ unknown_name ∧
      ∀ (D : Type) (ops : NumOps D) (t t' : Table D), process ops t d = some t' →
        lookup unknown_name t' = lookup unknown_name t) := by
  refine ⟨key_eq_unknown_iff d, ?_⟩
  intro hn
  have hk : (parse d).name ++ (parse d).tags ≠ unknown_name :=
    fun e => hn ((key_eq_unknown_iff d).mp e).1
  refine ⟨hk, ?_⟩
  intro D ops t t' hp
  obtain ⟨key, str, ty, m', _, hcase, _, hl, _, _⟩ := process_effect ops t t' d hp
  rcases hcase with ⟨_, rfl, _, _⟩ | ⟨hu', _⟩
  · have hk' : ¬ unknown_name = (parse d).name ++ (parse d).tags := fun e => hk e.symm
    rw [hl unknown_name, if_neg hk']
  · exact absurd hu' hu

/-- C12 (as amended) at the datagram `x:1|c|#env:prod`, on a table that holds
the sentinel entry. -/
theorem C12_sentinel_key_witness :
    (parse "x:1|c|#env:prod".toList).type ≠ .Unknown ∧
    (parse "x:1|c|#env:prod".toList).name ≠ unknown_name ∧
    process decOps [(unknown_name, ⟨.Count, 3, 0⟩)] "x:1|c|#env:prod".toList =
      some [(unknown_name, ⟨.Count, 3, 0⟩), ("x|env:prod".toList, ⟨.Count, 1, 0⟩)] ∧
    lookup unknown_name
        [(unknown_name, (⟨.Count, 3, 0⟩ : Metric Int)),
          ("x|env:prod".toList, ⟨.Count, 1, 0⟩)] =
      lookup unknown_name [(unknown_name, (⟨.Count, 3, 0⟩ : Metric Int))] :=
  ⟨by decide, by decide, by decide,
    ((C12_sentinel_key "x:1|c|#env:prod".toList (by decide)).2 (by decide)).2 Int decOps
      [(unknown_name, ⟨.Count, 3, 0⟩)]
      [(unknown_name, ⟨.Count, 3, 0⟩), ("x|env:prod".toList, ⟨.Count, 1, 0⟩)] (by decide)⟩

/-- C12 fails as stated: `<<<unknown>>>:1|c` parses with the type `Count`, its
aggregation key is the sentinel key, and on the empty table it creates the
sentinel entry; `<<<unknown>>>:7|g` on a table that holds the sentinel entry
with count `3` changes that entry. -/
theorem C12_sentinel_key_counterexample :
    (parse "<<<unknown>>>:1|c".toList).type = .Count ∧
    (parse "<<<unknown>>>:1|c".toList).name ++ (parse "<<<unknown>>>:1|c".toList).tags =
      unknown_name ∧
    process decOps [] "<<<unknown>>>:1|c".toList = some [(unknown_name, ⟨.Count, 1, 0⟩)] ∧
    (parse "<<<unknown>>>:7|g".toList).type = .Gauge ∧
    process decOps [(unknown_name, ⟨.Count, 3, 0⟩)] "<<<unknown>>>:7|g".toList =
      some [(unknown_name, ⟨.Count, 4, 0⟩)] := by
  decide

/-- C13 (as amended): for every table, every datagram whose step returns, and
every key present before: the key is still present afterwards, with the same
type, and its count is either the count before or the count before plus one
as a `size_t`; so the count has not decreased whenever the count before is
below `2 ^ 64 - 1`. -/
theorem C13_count_monotone {D : Type} (ops : NumOps D) (t t' : Table D) (d k : List Char)
    (m : Metric D) (hp : process ops t d = some t') (hk : lookup k t = some m) :
    ∃ m', lookup k t' = some m' ∧ m'.type = m.type ∧
      (m'.count = m.count ∨ m'.count = (m.count + 1) % SIZE_T_MOD) ∧
      (m.count + 1 < 2 ^ 64 → m.count ≤ m'.count) := by
  obtain ⟨key, str, ty, m', _, _, hm', hl, _, _⟩ := process_effect ops t t' d hp
  by_cases hkey : k = key
  · subst hkey
    rw [hk, Option.getD_some] at hm'
    obtain ⟨hc, htype⟩ := update_count ops m m' str hm'
    refine ⟨m', by simpa using hl k, htype, Or.inr hc, ?_⟩
    intro hlt
    rw [hc, Nat.mod_eq_of_lt (by simpa [SIZE_T_MOD] using hlt)]
    omega
  · refine ⟨m, ?_, rfl, Or.inl rfl, fun _ => le_refl _⟩
    rw [hl k, if_neg hkey, hk]

/-- C13 (as amended) at the datagram `x:1|c`, on a table with the entries `x`
and `y`, for each of the two keys. -/
theorem C13_count_monotone_witness :
    process decOps [("x".toList, ⟨.Count, 7, 0⟩), ("y".toList, ⟨.Gauge, 2, 5000000⟩)]
        "x:1|c".toList =
      some [("x".toList, ⟨.Count, 8, 0⟩), ("y".toList, ⟨.Gauge, 2, 5000000⟩)] ∧
    lookup "x".toList
        [("x".toList, (⟨.Count, 7, 0⟩ : Metric Int)), ("y".toList, ⟨.Gauge, 2, 5000000⟩)] =
      some ⟨.Count, 7, 0⟩ ∧
    ∃ m', lookup "x".toList
        [("x".toList, (⟨.Count, 8, 0⟩ : Metric Int)), ("y".toList, ⟨.Gauge, 2, 5000000⟩)] =
        some m' ∧
      m'.type = (⟨.Count, 7, 0⟩ : Metric Int).type ∧
      (m'.count = (⟨.Count, 7, 0⟩ : Metric Int).count ∨
        m'.count = ((⟨.Count, 7, 0⟩ : Metric Int).count + 1) % SIZE_T_MOD) ∧
      ((⟨.Count, 7, 0⟩ : Metric Int).count + 1 < 2 ^ 64 →
        (⟨.Count, 7, 0⟩ : Metric Int).count ≤ m'.count) :=
  ⟨by decide, by decide,
    C13_count_monotone decOps
      [("x".toList, ⟨.Count, 7, 0⟩), ("y".toList, ⟨.Gauge, 2, 5000000⟩)]
      [("x".toList, ⟨.Count, 8, 0⟩), ("y".toList, ⟨.Gauge, 2, 5000000⟩)]
      "x:1|c".toList "x".toList ⟨.Count, 7, 0⟩ (by decide) (by decide)⟩

/-- C13 fails as stated: on the table whose entry `x` has the largest `size_t`
count, `2 ^ 64 - 1`, the datagram `x:1|c` is processed and leaves the count of
`x` at `0`, which is less than the count before. -/
theorem C13_count_monotone_counterexample :
    lookup "x".toList [("x".toList, (⟨.Count, 2 ^ 64 - 1, 0⟩ : Metric Int))] =
      some ⟨.Count, 2 ^ 64 - 1, 0⟩ ∧
    process decOps [("x".toList, ⟨.Count, 2 ^ 64 - 1, 0⟩)] "x:1|c".toList =
      some [("x".toList, ⟨.Count, 0, 0⟩)] ∧
    (⟨.Count, 0, 0⟩ : Metric Int).count < (⟨.Count, 2 ^ 64 - 1, 0⟩ : Metric Int).count := by
  decide

/-- C17 (as amended): for every table and every datagram, of any bytes, whose
step returns, there is one key, the aggregation key `name ++ tags` of the
parse or the sentinel key, whose entry afterwards has the count of the entry
before plus one as a `size_t` (count `1` when the key was absent), and every
other key has the entry it had, or none as before. From the empty table, the
sum of all counts is the number of datagrams processed as long as that number
is below `2 ^ 64`. -/
theorem C17_one_count_per_datagram {D : Type} (ops : NumOps D) :
    (∀ (t t' : Table D) (d : List Char), process ops t d = some t' →
      ∃ key m', (key = (parse d).name ++ (parse d).tags ∨ key = unknown_name) ∧
        lookup key t' = some m' ∧
        (lookup key t = none → m'.count = 1) ∧
        (∀ m, lookup key t = some m →
          m'.count = (m.count + 1) % SIZE_T_MOD ∧
          (m.count + 1 < 2 ^ 64 → m'.count = m.count + 1)) ∧
        (∀ k, k ≠ key → lookup k t' = lookup k t)) ∧
    (∀ (ds : List (List Char)) (t : Table D), processAll ops [] ds = some t →
      ds.length < 2 ^ 64 → countSum t = ds.length) := by
  constructor
  · intro t t' d hp
    obtain ⟨key, str, ty, m', _, hcase, hm', hl, _, _⟩ := process_effect ops t t' d hp
    obtain ⟨hc, _⟩ := update_count ops _ m' str hm'
    refine ⟨key, m', ?_, by simpa using hl key, ?_, ?_, ?_⟩
    · rcases hcase with ⟨_, h, _, _⟩ | ⟨_, h, _, _⟩
      · exact Or.inl h
      · exact Or.inr h
    · intro hnone
      rw [hnone] at hc
      simpa [Metric.new, SIZE_T_MOD] using hc
    · intro m hsome
      rw [hsome, Option.getD_some] at hc
      refine ⟨hc, fun hlt => ?_⟩
      rw [hc, Nat.mod_eq_of_lt (by simpa [SIZE_T_MOD] using hlt)]
    · intro k hk
      rw [hl k, if_neg hk]
  · intro ds t h hb
    have := processAll_countSum ops ds [] t h (by simpa [countSum] using hb)
    simpa [countSum] using this

/-- C17 (as amended) in exact decimal arithmetic: the datagram `bad` on a
table with the entry `x`, and three datagrams from the empty table. -/
theorem C17_one_count_per_datagram_witness :
    (process decOps [("x".toList, ⟨.Count, 7, 0⟩)] "bad".toList =
        some [(unknown_name, ⟨.Count, 1, 0⟩), ("x".toList, ⟨.Count, 7, 0⟩)] ∧
      ∃ key m', (key = (parse "bad".toList).name ++ (parse "bad".toList).tags ∨
          key = unknown_name) ∧
        lookup key [(unknown_name, (⟨.Count, 1, 0⟩ : Metric Int)),
          ("x".toList, ⟨.Count, 7, 0⟩)] = some m' ∧
        (lookup key [("x".toList, (⟨.Count, 7, 0⟩ : Metric Int))] = none → m'.count = 1) ∧
        (∀ m, lookup key [("x".toList, (⟨.Count, 7, 0⟩ : Metric Int))] = some m →
          m'.count = (m.count + 1) % SIZE_T_MOD ∧
          (m.count + 1 < 2 ^ 64 → m'.count = m.count + 1)) ∧
        (∀ k, k ≠ key →
          lookup k [(unknown_name, (⟨.Count, 1, 0⟩ : Metric Int)),
            ("x".toList, ⟨.Count, 7, 0⟩)] =
          lookup k [("x".toList, (⟨.Count, 7, 0⟩ : Metric Int))])) ∧
    (processAll decOps [] ["x:1|c".toList, "bad".toList, "x:2|c".toList] =
        some [(unknown_name, ⟨.Count, 1, 0⟩), ("x".toList, ⟨.Count, 2, 0⟩)] ∧
      ["x:1|c".toList, "bad".toList, "x:2|c".toList].length < 2 ^ 64 ∧
      countSum [(unknown_name, (⟨.Count, 1, 0⟩ : Metric Int)), ("x".toList, ⟨.Count, 2, 0⟩)] =
        ["x:1|c".toList, "bad".toList, "x:2|c".toList].length) :=
  ⟨⟨by decide,
      (C17_one_count_per_datagram decOps).1 [("x".toList, ⟨.Count, 7, 0⟩)]
        [(unknown_name, ⟨.Count, 1, 0⟩), ("x".toList, ⟨.Count, 7, 0⟩)] "bad".toList
        (by decide)⟩,
    ⟨by decide, by decide,
      (C17_one_count_per_datagram decOps).2 ["x:1|c".toList, "bad".toList, "x:2|c".toList]
        [(unknown_name, ⟨.Count, 1, 0⟩), ("x".toList, ⟨.Count, 2, 0⟩)]
        (by decide) (by decide)⟩⟩

/-- C17 fails as stated: after the `2 ^ 64` datagrams `x:5|c` from the empty
table, all processed, the sum of all counts is `0`, not the number of
datagrams. -/
theorem C17_one_count_per_datagram_counterexample :
    ∃ t, processAll decOps [] (List.replicate (2 ^ 64) "x:5|c".toList) = some t ∧
      countSum t = 0 ∧
      countSum t ≠ (List.replicate (2 ^ 64) "x:5|c".toList).length := by
  have h := processAll_x5c decOps 5000000 (by decide) (2 ^ 64 - 1)
  have e1 : 2 ^ 64 - 1 + 1 = 2 ^ 64 := by norm_num
  have e2 : (2 : Nat) ^ 64 % SIZE_T_MOD = 0 := by simp [SIZE_T_MOD]
  rw [e1, e2] at h
  refine ⟨_, h, by simp [countSum], ?_⟩
  rw [List.length_replicate]
  simp [countSum]

/-- C18 (as amended): in every table built from the empty one by processing a
list of datagrams to completion, no entry has the type `Unknown`, every entry
of type `Count` has the value `0`, and, as long as fewer than `2 ^ 64`
datagrams have been processed, every entry has a count of `1` or more. -/
theorem C18_reachable_invariant {D : Type} (ops : NumOps D) (ds : List (List Char))
    (t : Table D) (h : processAll ops [] ds = some t) :
    ∀ e ∈ t, e.2.type ≠ .Unknown ∧ (e.2.type = .Count → e.2.value = ops.zero) ∧
      (ds.length < 2 ^ 64 → 1 ≤ e.2.count) := by
  have hs : keysAscending ([] : Table D) := by simp [keysAscending]
  intro e he
  have h1 := processAll_kinds ops ds [] t h hs (by simp) e he
  refine ⟨h1.1, h1.2, ?_⟩
  intro hb
  exact processAll_counts_pos ops ds [] t h hs (by simpa [countSum] using hb) (by simp) e he

/-- C18 (as amended) after `y:1|c`, `y:5|g`, `bad` and `z:2|ms`, for the entry
`y`. -/
theorem C18_reachable_invariant_witness :
    processAll decOps [] ["y:1|c".toList, "y:5|g".toList, "bad".toList, "z:2|ms".toList] =
      some [(unknown_name, ⟨.Count, 1, 0⟩), ("y".toList, ⟨.Count, 2, 0⟩),
        ("z".toList, ⟨.Timing, 1, 2000000⟩)] ∧
    (⟨.Count, 2, 0⟩ : Metric Int).type ≠ .Unknown ∧
    ((⟨.Count, 2, 0⟩ : Metric Int).type = .Count →
      (⟨.Count, 2, 0⟩ : Metric Int).value = decOps.zero) ∧
    (["y:1|c".toList, "y:5|g".toList, "bad".toList, "z:2|ms".toList].length < 2 ^ 64 →
      1 ≤ (⟨.Count, 2, 0⟩ : Metric Int).count) :=
  ⟨by decide,
    C18_reachable_invariant decOps
      ["y:1|c".toList, "y:5|g".toList, "bad".toList, "z:2|ms".toList]
      [(unknown_name, ⟨.Count, 1, 0⟩), ("y".toList, ⟨.Count, 2, 0⟩),
        ("z".toList, ⟨.Timing, 1, 2000000⟩)]
      (by decide) ("y".toList, ⟨.Count, 2, 0⟩) (by decide)⟩

/-- C18 fails as stated: the table built from the empty one by the `2 ^ 64`
datagrams `x:5|c` has the entry `x` with count `0`. -/
theorem C18_reachable_invariant_counterexample :
    ∃ t, processAll decOps [] (List.replicate (2 ^ 64) "x:5|c".toList) = some t ∧
      ("x".toList, (⟨.Count, 0, 0⟩ : Metric Int)) ∈ t ∧
      ¬ 1 ≤ (⟨.Count, 0, 0⟩ : Metric Int).count := by
  have h := processAll_x5c decOps 5000000 (by decide) (2 ^ 64 - 1)
  have e1 : 2 ^ 64 - 1 + 1 = 2 ^ 64 := by norm_num
  have e2 : (2 : Nat) ^ 64 % SIZE_T_MOD = 0 := by simp [SIZE_T_MOD]
  rw [e1, e2] at h
  exact ⟨_, h, by simp [decOps], by simp⟩

/-- C15: `print_metrics` returns the map it was given, every key and every
`Metric` as it was; so the table reached from any table by any list of
datagrams is the same whether `print_metrics` is called after every datagram,
after some of them or after none. -/
theorem C15_render_pure {D : Type} (ops : NumOps D) :
    (∀ t : Table D, (print_metrics ops t).1 = t) ∧
    (∀ (t : Table D) (ds : List (List Char × Bool)),
      runWith ops t ds = processAll ops t (ds.map Prod.fst)) ∧
    (∀ (t : Table D) (ds : List (List Char × Bool)),
      runWith ops t ds = runWith ops t (ds.map (fun e => (e.1, true))) ∧
      runWith ops t ds = runWith ops t (ds.map (fun e => (e.1, false)))) := by
  refine ⟨print_metrics_table ops, fun t ds => runWith_eq_processAll ops ds t, ?_⟩
  intro t ds
  constructor <;>
    rw [runWith_eq_processAll, runWith_eq_processAll] <;>
    simp [List.map_map, Function.comp_def]

/-- C16 (as amended): for a name without a colon and a measurement without a
bar, the datagram `name ":" measurement "|" t "|" rest` with `t` one of `c`,
`g`, `ms` has the parsed tags made of the bar itself followed by `rest`
without its first byte, which is the bar alone when `rest` has at most one
byte. For any datagram at all, parsed tags that are not empty start with a
bar. The datagrams `x:1|c` and `x:1|c|` have the keys `x` and `x|`, and from
the empty table they are counted in two entries. -/
theorem C16_exact_tag_capture (name meas rest : List Char)
    (hn : ':' ∉ name) (hm : '|' ∉ meas) :
    (parse (name ++ ":".toList ++ meas ++ "|".toList ++ "c".toList ++ "|".toList ++
      rest)).tags = '|' :: rest.tail ∧
    (parse (name ++ ":".toList ++ meas ++ "|".toList ++ "g".toList ++ "|".toList ++
      rest)).tags = '|' :: rest.tail ∧
    (parse (name ++ ":".toList ++ meas ++ "|".toList ++ "ms".toList ++ "|".toList ++
      rest)).tags = '|' :: rest.tail ∧
    (rest.length ≤ 1 → '|' :: rest.tail = "|".toList) ∧
    (∀ d : List Char, (parse d).tags ≠ [] → ∃ r, (parse d).tags = '|' :: r) ∧
    (parse "x:1|c".toList).name ++ (parse "x:1|c".toList).tags = "x".toList ∧
    (parse "x:1|c|".toList).name ++ (parse "x:1|c|".toList).tags = "x|".toList ∧
    "x".toList ≠ "x|".toList ∧
    (∀ (D : Type) (ops : NumOps D) (one : D), ops.stod "1".toList = some one →
      processAll ops [] ["x:1|c".toList, "x:1|c|".toList] =
        some [("x".toList, ⟨.Count, 1, ops.zero⟩), ("x|".toList, ⟨.Count, 1, ops.zero⟩)]) := by
  obtain ⟨h1, h2, h3⟩ := parse_tagged name meas rest hn hm
  refine ⟨?_, ?_, ?_, ?_, ?_, by decide, by decide, by decide, ?_⟩
  · have e : name ++ ":".toList ++ meas ++ "|".toList ++ "c".toList ++ "|".toList ++ rest =
        name ++ ':' :: (meas ++ '|' :: 'c' :: '|' :: rest) := by simp
    rw [e, h1]
  · have e : name ++ ":".toList ++ meas ++ "|".toList ++ "g".toList ++ "|".toList ++ rest =
        name ++ ':' :: (meas ++ '|' :: 'g' :: '|' :: rest) := by simp
    rw [e, h2]
  · have e : name ++ ":".toList ++ meas ++ "|".toList ++ "ms".toList ++ "|".toList ++ rest =
        name ++ ':' :: (meas ++ '|' :: 'm' :: 's' :: '|' :: rest) := by simp
    rw [e, h3]
  · intro hl
    match rest, hl with
    | [], _ => rfl
    | [_], _ => rfl
    | _ :: _ :: _, hl => simp at hl
  · intro d hd
    rcases parse_tags_shape d with h0 | hr
    · exact absurd h0 hd
    · exact hr
  · intro D ops one h1
    have hc : c_str "1".toList = "1".toList := by rfl
    have hp1 : parse "x:1|c".toList =
        ⟨"x".toList, "1".toList, [], .Count, .ReadingTypeC⟩ := by rfl
    have hp2 : parse "x:1|c|".toList =
        ⟨"x".toList, "1".toList, "|".toList, .Count, .ReadingTags⟩ := by rfl
    have hm0 : Metric.update ops (Metric.new ops .Count) "1".toList =
        some ⟨.Count, 1, ops.zero⟩ := by
      rw [update_of_count ops _ _ one (Or.inr rfl) (by rw [hc, h1]), Metric.new, one_mod]
    have s1 := process_first ops _ _ _ _ _ _ ⟨.Count, 1, ops.zero⟩ hp1 (by decide) hm0
    have hu2 : (parse "x:1|c|".toList).type ≠ .Unknown := by rw [hp2]; decide
    have k1 : ¬ ("x".toList ++ [] = "x".toList ++ "|".toList) := by decide
    have k2 : strLt ("x".toList ++ "|".toList) ("x".toList ++ []) = false := by decide
    simp only [processAll, s1]
    rw [process_recognized ops _ _ hu2, hp2]
    simp only [updateAt, emplace, lookup, insertSorted, modify, k1, k2, hm0, if_true,
      if_false, Bool.false_eq_true]
    rfl

/-- C16 (as amended) at the datagram `x:1|ms|#a`, and in exact decimal
arithmetic for the datagrams `x:1|c` and `x:1|c|`. -/
theorem C16_exact_tag_capture_witness :
    ':' ∉ "x".toList ∧ '|' ∉ "1".toList ∧
    (parse ("x".toList ++ ":".toList ++ "1".toList ++ "|".toList ++ "ms".toList ++
      "|".toList ++ "#a".toList)).tags = '|' :: "#a".toList.tail ∧
    ("".toList.length ≤ 1 ∧ (parse "x:1|c|".toList).tags ≠ [] ∧
      decOps.stod "1".toList = some 1000000) ∧
    processAll decOps [] ["x:1|c".toList, "x:1|c|".toList] =
      some [("x".toList, ⟨.Count, 1, decOps.zero⟩), ("x|".toList, ⟨.Count, 1, decOps.zero⟩)] :=
  ⟨by decide, by decide,
    (C16_exact_tag_capture "x".toList "1".toList "#a".toList (by decide) (by decide)).2.2.1,
    ⟨by decide, by decide, by decide⟩,
    (C16_exact_tag_capture "x".toList "1".toList "".toList
      (by decide) (by decide)).2.2.2.2.2.2.2.2 Int decOps 1000000 (by decide)⟩

/-- C16 fails as stated: `a:1|2|c|xyz` is `name ":" measurement "|" t "|" rest`
with the name `a`, the measurement `1|2`, the token `c` and the rest `xyz`,
but its parsed tags are empty, not the bar followed by `yz`: the measurement
ends at its first bar, and the parse stops on the byte `2`. -/
theorem C16_exact_tag_capture_counterexample :
    "a:1|2|c|xyz".toList =
      "a".toList ++ ":".toList ++ "1|2".toList ++ "|".toList ++ "c".toList ++ "|".toList ++
        "xyz".toList ∧
    (parse "a:1|2|c|xyz".toList).tags = [] ∧
    (parse "a:1|2|c|xyz".toList).tags ≠ '|' :: "xyz".toList.tail ∧
    (parse "a:1|2|c|xyz".toList).type = .Unknown := by
  decide

end NiceStats
